import Mathlib

/-!
# Target-profile trees of `pkg/dispers/query/requests.go`

A shallow embedding of `ConceptsToString`, `union`, `intersection`,
`OperationTree.Compute` and `OperationTree.UnmarshalJSON`, followed by the properties
proved about them.

Conventions of the embedding.

* A Go `string` is a sequence of bytes. It is held as the `String` whose characters have
  those bytes as code points, so that a text of ASCII characters is held as itself
  (`ConceptsToString`, which converts from `[]byte`, holds it as a list of bytes).
* A Go `[]string` is embedded twice. `union`, `intersection` and `Compute` take it for the
  sequence it holds, a `List String`, `append` being concatenation at the end and a nil
  slice and an empty slice both `[]`; this tells which leaf is looked up, which error is
  returned and where a call panics, and it tells the sequence returned as long as no
  backing array is written while another slice on it is still read. `Mem.union`,
  `Mem.intersection` and `Mem.Compute` keep the backing arrays, and there `append` writes
  in place while the capacity lasts.
* A Go `map[string]V` is an association list read by its first binding for a key.
  Where the code ranges over a map, the order of the list stands for the order in
  which that `range` visits the keys, which Go leaves unspecified.
* A Go `error` is `Option String`: `none` is `nil`, `some msg` an error with that text.
* A call either returns or panics (`Result`).
-/

namespace Query

/-! ## Go maps -/

/-- A `map[string]V`. -/
abbrev GoMap (V : Type) := List (String × V)

namespace GoMap

/-- The two-valued read `v, ok := m[k]`: `none` when `ok` is false. -/
def get {V : Type} (m : GoMap V) (k : String) : Option V :=
  List.lookup k m

/-- The assignment `m[k] = v`. -/
def set {V : Type} (m : GoMap V) (k : String) (v : V) : GoMap V :=
  (k, v) :: m.filter (fun e => e.1 != k)

/-- The keys in the order `for k := range m` visits them. -/
def keys {V : Type} (m : GoMap V) : List String :=
  m.map Prod.fst

end GoMap

/-! ## Results of calls -/

/-- Outcome of a call: a normal return, or a run-time panic. -/
inductive Result (α : Type) where
  | ret (a : α)
  | panic
  deriving DecidableEq, Repr

/-! ## `union` and `intersection` -/

/-- `func union(a, b []string) []string`, on the sequences the slices hold. -/
def union (a b : List String) : List String :=
  let m : GoMap Bool := a.foldl (fun m item => m.set item true) []
  b.foldl (fun a item => if (m.get item).isNone then a ++ [item] else a) a

/-- `func intersection(a, b []string) (c []string)`, on the sequences the slices hold. -/
def intersection (a b : List String) : List String :=
  let m : GoMap Bool := a.foldl (fun m item => m.set item true) []
  b.foldl (fun c item => if (m.get item).isSome then c ++ [item] else c) []

/-! ## `NodeType` and `OperationTree` -/

/-- `type NodeType int`. -/
abbrev NodeType := Int

/-- `SingleNode NodeType = iota`. -/
def SingleNode : NodeType := 0
/-- `OrNode`, the second constant of the block. -/
def OrNode : NodeType := 1
/-- `AndNode`, the third constant of the block. -/
def AndNode : NodeType := 2

/-- A value of type `interface{}` as far as `Compute` can tell values apart:
the nil interface, an `OperationTree` value, or a value of any other dynamic type. -/
inductive Iface (α : Type) where
  | nil
  | tree (t : α)
  | other
  deriving Repr

/-- `type OperationTree struct`; the field `Type` is written `Typ`. -/
inductive OperationTree where
  | mk (Typ : NodeType) (Value : String)
       (LeftNode : Iface OperationTree) (RightNode : Iface OperationTree)
  deriving Repr

namespace OperationTree

/-- Field `Type`. -/
def Typ : OperationTree → NodeType
  | mk t _ _ _ => t
/-- Field `Value`. -/
def Value : OperationTree → String
  | mk _ v _ _ => v
/-- Field `LeftNode`. -/
def LeftNode : OperationTree → Iface OperationTree
  | mk _ _ l _ => l
/-- Field `RightNode`. -/
def RightNode : OperationTree → Iface OperationTree
  | mk _ _ _ r => r

/-- The zero value, as of `var leftNode OperationTree`. -/
def zero : OperationTree := mk 0 "" Iface.nil Iface.nil

end OperationTree

/-- The text of the error built in the `!ok` branch of `Compute`. -/
def unknownConceptMsg {V : Type} (value : String) (listsOfAddresses : GoMap V) : String :=
  (GoMap.keys listsOfAddresses).foldl (fun msg k => msg ++ " " ++ k)
    ("Unknown concept : " ++ value ++ " expect one of : ")

/-- The type assertion `x.(OperationTree)`: the tree held by the interface, or `none`
where the assertion fails (and the one-valued form panics). -/
def Iface.assertTree {α : Type} : Iface α → Option α
  | Iface.tree t => some t
  | Iface.nil => none
  | Iface.other => none

/-- `func (o *OperationTree) Compute(listsOfAddresses map[string][]string) ([]string, error)`,
on the sequences the slices hold. The type assertions `o.LeftNode.(OperationTree)` and `o.RightNode.(OperationTree)`
panic on anything that is not an `OperationTree` value. -/
def Compute (o : OperationTree) (listsOfAddresses : GoMap (List String)) :
    Result (List String × Option String) :=
  if o.Typ = SingleNode then
    match GoMap.get listsOfAddresses o.Value with
    | none => Result.ret ([], some (unknownConceptMsg o.Value listsOfAddresses))
    | some val => Result.ret (val, none)
  else if o.Typ = OrNode ∨ o.Typ = AndNode then
    match hl : o.LeftNode.assertTree with
    | none => Result.panic
    | some leftNode =>
      match Compute leftNode listsOfAddresses with
      | Result.panic => Result.panic
      | Result.ret (_, some err) => Result.ret ([], some err)
      | Result.ret (a, none) =>
        match hr : o.RightNode.assertTree with
        | none => Result.panic
        | some rightNode =>
          match Compute rightNode listsOfAddresses with
          | Result.panic => Result.panic
          | Result.ret (_, some err) => Result.ret ([], some err)
          | Result.ret (b, none) =>
            if o.Typ = OrNode then Result.ret (union a b, none)
            else if o.Typ = AndNode then Result.ret (intersection a b, none)
            else Result.ret ([], some "Unknown type")
  else
    Result.ret ([], some "Unknown type")
termination_by sizeOf o
decreasing_by
  · cases o with
    | mk typ value left right =>
      cases left with
      | tree u =>
        simp only [OperationTree.LeftNode, Iface.assertTree, Option.some.injEq] at hl
        subst hl
        simp only [OperationTree.mk.sizeOf_spec, Iface.tree.sizeOf_spec]
        omega
      | nil => simp [OperationTree.LeftNode, Iface.assertTree] at hl
      | other => simp [OperationTree.LeftNode, Iface.assertTree] at hl
  · cases o with
    | mk typ value left right =>
      cases right with
      | tree u =>
        simp only [OperationTree.RightNode, Iface.assertTree, Option.some.injEq] at hr
        subst hr
        simp only [OperationTree.mk.sizeOf_spec, Iface.tree.sizeOf_spec]
        omega
      | nil => simp [OperationTree.RightNode, Iface.assertTree] at hr
      | other => simp [OperationTree.RightNode, Iface.assertTree] at hr

/-! ## Generic JSON values -/

/-- A finite `float64`, the value `mant * 2 ^ exp`; every number `encoding/json`
stores in an `interface{}` is one. -/
structure Float64 where
  mant : Int
  exp : Int
  deriving DecidableEq, Repr

namespace Float64

/-- The `float64` of a small integer. -/
def ofInt (n : Int) : Float64 := ⟨n, 0⟩

/-- The integer part, rounding toward zero. -/
def trunc (x : Float64) : Int :=
  if 0 ≤ x.exp then x.mant * 2 ^ x.exp.toNat else Int.tdiv x.mant (2 ^ (-x.exp).toNat)

/-- The conversion `int(x)` to a 64-bit `int`: the fractional part is discarded; for a
value outside the range of `int` Go leaves the result to the implementation, and the
one taken here is that of amd64, the least `int`. -/
def toInt (x : Float64) : Int :=
  if -2 ^ 63 ≤ x.trunc ∧ x.trunc < 2 ^ 63 then x.trunc else -2 ^ 63

end Float64

/-- What `json.Unmarshal` stores in an `interface{}`: `nil`, `bool`, `float64`, `string`,
`[]interface{}` or `map[string]interface{}`. -/
inductive JSONValue where
  | null
  | bool (b : Bool)
  | number (x : Float64)
  | string (s : String)
  | array (xs : List JSONValue)
  | object (fields : List (String × JSONValue))
  deriving Repr

/-- The bytes handed to a decoder, told apart by what `encoding/json` makes of them:
either it rejects them with an error (they are not JSON, or hold a number no `float64`
can hold), or they denote a JSON value. -/
inductive Payload where
  | invalid (err : String)
  | valid (v : JSONValue)
  deriving Repr

/-- `json.Unmarshal(data, &v)` for `var v map[string]interface{}`: `null` leaves `v` nil,
which reads like the empty map; a value that is not a record is a type error. -/
def jsonUnmarshalMap : Payload → Except String (GoMap JSONValue)
  | Payload.invalid err => Except.error err
  | Payload.valid JSONValue.null => Except.ok []
  | Payload.valid (JSONValue.object fields) => Except.ok fields
  | Payload.valid (JSONValue.bool _) =>
    Except.error "json: cannot unmarshal bool into Go value of type map[string]interface \x7b\x7d"
  | Payload.valid (JSONValue.number _) =>
    Except.error "json: cannot unmarshal number into Go value of type map[string]interface \x7b\x7d"
  | Payload.valid (JSONValue.string _) =>
    Except.error "json: cannot unmarshal string into Go value of type map[string]interface \x7b\x7d"
  | Payload.valid (JSONValue.array _) =>
    Except.error "json: cannot unmarshal array into Go value of type map[string]interface \x7b\x7d"

/-- The first `switch` of `UnmarshalJSON`: the `NodeType` chosen for `int(v["type"].(float64))`,
or `none` in the `default` case. -/
def nodeTypeOfInt (n : Int) : Option NodeType :=
  if n = 0 then some SingleNode
  else if n = 1 then some OrNode
  else if n = 2 then some AndNode
  else none

/-- The assignment `o.Value, _ = v["value"].(string)`: the zero value when the assertion fails. -/
def valueOfField : Option JSONValue → String
  | some (JSONValue.string s) => s
  | _ => ""

/-- `func (o *OperationTree) UnmarshalJSON(data []byte) error`. The receiver is passed in
and the value it holds when the call returns is handed back beside the error.
The assertions `v["type"].(float64)`, `v["left_node"].(map[string]interface{})` and
`v["right_node"].(map[string]interface{})` panic when they fail. The bytes that
`json.Marshal` writes for a child record denote that record again, and `json.Unmarshal`
on them into `&leftNode` or `&rightNode` is this method on a zero receiver. -/
def UnmarshalJSON (o : OperationTree) (data : Payload) : Result (OperationTree × Option String) :=
  match hv : jsonUnmarshalMap data with
  | Except.error err => Result.ret (o, some err)
  | Except.ok v =>
    match GoMap.get v "type" with
    | none => Result.ret (o, some "No type defined")
    | some JSONValue.null => Result.ret (o, some "No type defined")
    | some (JSONValue.number x) =>
      match nodeTypeOfInt x.toInt with
      | none => Result.ret (o, some "Unknown type")
      | some typ =>
        let o1 := OperationTree.mk typ o.Value o.LeftNode o.RightNode
        if typ = SingleNode then
          Result.ret (OperationTree.mk typ (valueOfField (GoMap.get v "value")) o.LeftNode o.RightNode,
            none)
        else if typ = AndNode ∨ typ = OrNode then
          match hl : GoMap.get v "left_node" with
          | some (JSONValue.object lf) =>
            match UnmarshalJSON OperationTree.zero (Payload.valid (JSONValue.object lf)) with
            | Result.panic => Result.panic
            | Result.ret (_, some err) => Result.ret (o1, some err)
            | Result.ret (leftNode, none) =>
              match hr : GoMap.get v "right_node" with
              | some (JSONValue.object rf) =>
                match UnmarshalJSON OperationTree.zero (Payload.valid (JSONValue.object rf)) with
                | Result.panic => Result.panic
                | Result.ret (_, some err) => Result.ret (o1, some err)
                | Result.ret (rightNode, none) =>
                  Result.ret (OperationTree.mk typ o.Value (Iface.tree leftNode) (Iface.tree rightNode),
                    none)
              | _ => Result.panic
          | _ => Result.panic
        else
          Result.ret (o1, none)
    | some _ => Result.panic
termination_by sizeOf data
decreasing_by
  all_goals
    have lookup_lt : ∀ (k : String) (fields : List (String × JSONValue)) (j : JSONValue),
        List.lookup k fields = some j → sizeOf j < sizeOf fields := by
      intro k fields
      induction fields with
      | nil => intro j h; simp at h
      | cons e tl ih =>
        intro j h
        obtain ⟨k', v'⟩ := e
        simp only [List.lookup] at h
        split at h
        · simp only [Option.some.injEq] at h
          subst h
          simp only [List.cons.sizeOf_spec, Prod.mk.sizeOf_spec]
          omega
        · have := ih j h
          simp only [List.cons.sizeOf_spec, Prod.mk.sizeOf_spec]
          omega
    cases data with
    | invalid err => simp [jsonUnmarshalMap] at hv
    | valid j =>
      cases j with
      | object fs =>
        simp only [jsonUnmarshalMap, Except.ok.injEq] at hv
        subst hv
        first
          | have := lookup_lt _ fs _ hl
            simp only [Payload.valid.sizeOf_spec, JSONValue.object.sizeOf_spec] at this ⊢
            omega
          | have := lookup_lt _ fs _ hr
            simp only [Payload.valid.sizeOf_spec, JSONValue.object.sizeOf_spec] at this ⊢
            omega
      | null =>
        simp only [jsonUnmarshalMap, Except.ok.injEq] at hv
        subst hv
        simp [GoMap.get] at hl
      | _ => simp [jsonUnmarshalMap] at hv

/-! ## Encoding -/

/-- A continuation byte of UTF-8, `0x80` to `0xBF`. -/
def isCont (c : Char) : Bool :=
  decide (0x80 ≤ c.toNat) && decide (c.toNat ≤ 0xBF)

/-- The length of the UTF-8 encoding that starts a string of bytes, each byte held as the
character of that code point, or `none` when no valid encoding starts it (where
`utf8.DecodeRuneInString` returns `RuneError` with width 1). The second byte is bounded
after the first: `A0..BF` after `E0`, `80..9F` after `ED`, `90..BF` after `F0`, `80..8F`
after `F4`, and `80..BF` otherwise. -/
def utf8Len : List Char → Option Nat
  | [] => none
  | c0 :: rest =>
    if c0.toNat < 0x80 then some 1
    else if c0.toNat < 0xC2 then none
    else if c0.toNat < 0xE0 then
      match rest with
      | c1 :: _ => if isCont c1 then some 2 else none
      | [] => none
    else if c0.toNat < 0xF0 then
      match rest with
      | c1 :: c2 :: _ =>
        if decide ((if c0.toNat = 0xE0 then 0xA0 else 0x80) ≤ c1.toNat)
            && decide (c1.toNat ≤ (if c0.toNat = 0xED then 0x9F else 0xBF))
            && isCont c2 then some 3
        else none
      | _ => none
    else if c0.toNat < 0xF5 then
      match rest with
      | c1 :: c2 :: c3 :: _ =>
        if decide ((if c0.toNat = 0xF0 then 0x90 else 0x80) ≤ c1.toNat)
            && decide (c1.toNat ≤ (if c0.toNat = 0xF4 then 0x8F else 0xBF))
            && isCont c2 && isCont c3 then some 4
        else none
      | _ => none
    else none

/-- The bytes `json.Unmarshal` reads back from what `json.Marshal` writes for a string,
the first argument counting the bytes still to copy of an encoding already checked: a
valid encoding is kept, and a byte that starts none is replaced by the encoding
`EF BF BD` of U+FFFD ("coerced to valid UTF-8, replacing invalid bytes with the Unicode
replacement rune", in the words of `encoding/json`). -/
def utf8CoerceAux : Nat → List Char → List Char
  | _, [] => []
  | k + 1, c :: cs => c :: utf8CoerceAux k cs
  | 0, c :: cs =>
    match utf8Len (c :: cs) with
    | some n => c :: utf8CoerceAux (n - 1) cs
    | none => Char.ofNat 0xEF :: Char.ofNat 0xBF :: Char.ofNat 0xBD :: utf8CoerceAux 0 cs

/-- A Go string as it comes back from a JSON encoding. Here a Go string is read as the
bytes it holds, a byte being the character of that code point. -/
def utf8Coerce (s : String) : String :=
  ⟨utf8CoerceAux 0 s.data⟩

/-- The bytes are valid UTF-8, the first argument counting the bytes still to pass of an
encoding already checked. -/
def validUTF8Aux : Nat → List Char → Bool
  | _, [] => true
  | k + 1, _ :: cs => validUTF8Aux k cs
  | 0, c :: cs =>
    match utf8Len (c :: cs) with
    | some n => validUTF8Aux (n - 1) cs
    | none => false

/-- A Go string that is valid UTF-8. -/
def validUTF8 (s : String) : Bool :=
  validUTF8Aux 0 s.data

/-- The JSON value denoted by the bytes `json.Marshal` writes for an `OperationTree`,
after the struct tags: `type` always, `value` unless empty and coerced to valid UTF-8,
`left_node` and `right_node` unless the interface is nil (a child tree is written the same
way). The result is `none` where this embedding does not determine the bytes: a child of
another dynamic type, or a `Type` too large to be read back as the same `float64`. -/
def Marshal : OperationTree → Option JSONValue
  | OperationTree.mk typ value left right =>
    let leftField : Option (List (String × JSONValue)) :=
      match left with
      | Iface.nil => some []
      | Iface.tree t => (Marshal t).map (fun j => [("left_node", j)])
      | Iface.other => none
    let rightField : Option (List (String × JSONValue)) :=
      match right with
      | Iface.nil => some []
      | Iface.tree t => (Marshal t).map (fun j => [("right_node", j)])
      | Iface.other => none
    if typ.natAbs ≤ 2 ^ 53 then
      match leftField, rightField with
      | some lf, some rf =>
        some (JSONValue.object
          ([("type", JSONValue.number (Float64.ofInt typ))]
            ++ (if value = "" then [] else [("value", JSONValue.string (utf8Coerce value))])
            ++ lf ++ rf))
      | _, _ => none
    else none

/-! ## Well-formed trees -/

/-- A tree whose every node has a `Type` among the three constants and whose every
`OrNode` and `AndNode` holds two `OperationTree` children, themselves well formed. -/
def WellFormed : OperationTree → Bool
  | OperationTree.mk typ _ left right =>
    if typ = SingleNode then true
    else if typ = OrNode ∨ typ = AndNode then
      match left, right with
      | Iface.tree l, Iface.tree r => WellFormed l && WellFormed r
      | _, _ => false
    else false

/-- A well-formed tree whose leaves moreover carry no children. -/
def WellFormedStrict : OperationTree → Bool
  | OperationTree.mk typ _ left right =>
    if typ = SingleNode then
      match left, right with
      | Iface.nil, Iface.nil => true
      | _, _ => false
    else if typ = OrNode ∨ typ = AndNode then
      match left, right with
      | Iface.tree l, Iface.tree r => WellFormedStrict l && WellFormedStrict r
      | _, _ => false
    else false

/-- The names of the leaves of a tree, left to right, depth first. -/
def leafNames : OperationTree → List String
  | OperationTree.mk typ value left right =>
    if typ = SingleNode then [value]
    else if typ = OrNode ∨ typ = AndNode then
      (match left with
        | Iface.tree l => leafNames l
        | _ => [])
      ++ (match right with
        | Iface.tree r => leafNames r
        | _ => [])
    else []

/-- The words of a list, each preceded by one space. -/
def spaced : List String → String
  | [] => ""
  | k :: tl => " " ++ k ++ spaced tl

/-- A leaf named `name`. -/
def mkLeaf (name : String) : OperationTree :=
  OperationTree.mk SingleNode name Iface.nil Iface.nil

/-- An `OrNode` over two trees. -/
def mkOr (l r : OperationTree) : OperationTree :=
  OperationTree.mk OrNode "" (Iface.tree l) (Iface.tree r)

/-- An `AndNode` over two trees. -/
def mkAnd (l r : OperationTree) : OperationTree :=
  OperationTree.mk AndNode "" (Iface.tree l) (Iface.tree r)

/-! ## `Concept` and `ConceptsToString` -/

/-- `type Concept struct`. A `[]byte` is the list of its bytes. -/
structure Concept where
  EncryptedConcept : List UInt8
  Hash : List UInt8
  deriving DecidableEq, Repr

/-- `func ConceptsToString(concepts []Concept) string`. The string built is held as the
list of its bytes, `string(concept.EncryptedConcept)` being the bytes themselves and ":"
the single byte 58; `index` and `len(concepts) - 1` are compared as integers. -/
def ConceptsToString (concepts : List Concept) : List UInt8 :=
  concepts.enum.foldl
    (fun str p =>
      let str := str ++ p.2.EncryptedConcept
      if (p.1 : Int) ≠ (concepts.length : Int) - 1 then str ++ [58] else str)
    []

/-- The payloads of a list of concepts in order, with one ":" between each two
consecutive payloads and none before the first or after the last. -/
def joinWithColon : List Concept → List UInt8
  | [] => []
  | [c] => c.EncryptedConcept
  | c :: d :: tl => c.EncryptedConcept ++ [58] ++ joinWithColon (d :: tl)

/-! ## The naive intersection -/

/-- A linear scan of `a` for `x`. -/
def linearScan (a : List String) (x : String) : Bool :=
  match a with
  | [] => false
  | y :: tl => if y = x then true else linearScan tl x

/-- The naive design of the intersection: the elements of `b`, in the order and with
the multiplicity they have in `b`, that a linear scan finds in `a`. -/
def intersectionNaive (a b : List String) : List String :=
  match b with
  | [] => []
  | x :: tl => if linearScan a x then x :: intersectionNaive a tl else intersectionNaive a tl

/-! ## Slices in memory

The definitions above take a `[]string` for the sequence it holds. Those of this section
keep the storage: a slice is a window on a backing array, `append` writes into that array
while the capacity lasts, and two slices on one array see each other's writes. -/

/-- A slice header: the backing array it points into (by its index among the arrays
allocated so far), the offset of its first element in that array, its length and its
capacity. -/
structure Slice where
  arr : Nat
  off : Nat
  len : Nat
  cap : Nat
  deriving DecidableEq, Repr

/-- The backing arrays allocated so far. -/
abbrev Heap := List (List String)

namespace Slice

/-- The nil slice; `[]string{}` is held the same way, both having length and capacity 0. -/
def empty : Slice := ⟨0, 0, 0, 0⟩

/-- The element `s[i]`. -/
def get (h : Heap) (s : Slice) (i : Nat) : String :=
  (h.getD s.arr []).getD (s.off + i) ""

/-- The sequence a slice holds. -/
def contents (h : Heap) (s : Slice) : List String :=
  ((h.getD s.arr []).drop s.off).take s.len

/-- A slice that lies within an allocated array. -/
def Valid (h : Heap) (s : Slice) : Prop :=
  s.len ≤ s.cap ∧ s.arr < h.length ∧ s.off + s.cap ≤ (h.getD s.arr []).length

instance (h : Heap) (s : Slice) : Decidable (Valid h s) := by
  unfold Valid
  infer_instance

end Slice

namespace Mem

/-- The built-in `append(s, x)`: while `len(s) < cap(s)` the element is written into the
backing array of `s`, behind its last element, and the result is a longer window on the
same array; otherwise the elements are copied into a new array. The capacity of a new
array is the runtime's choice, `grow (cap s)` here, and at least `len(s) + 1`. -/
def append (grow : Nat → Nat) (h : Heap) (s : Slice) (x : String) : Slice × Heap :=
  if s.len < s.cap then
    (⟨s.arr, s.off, s.len + 1, s.cap⟩,
      h.set s.arr ((h.getD s.arr []).set (s.off + s.len) x))
  else
    (⟨h.length, 0, s.len + 1, max (grow s.cap) (s.len + 1)⟩,
      h ++ [s.contents h ++ [x]
        ++ List.replicate (max (grow s.cap) (s.len + 1) - (s.len + 1)) ""])

/-- `func union(a, b []string) []string`, with the storage: `range b` reads `b[i]` when
the iteration reaches it, and `a = append(a, item)` may write into the array of `a`. -/
def union (grow : Nat → Nat) (h : Heap) (a b : Slice) : Slice × Heap :=
  let m : GoMap Bool := (a.contents h).foldl (fun m item => m.set item true) []
  (List.range b.len).foldl
    (fun st i =>
      if (m.get (b.get st.2 i)).isNone then append grow st.2 st.1 (b.get st.2 i) else st)
    (a, h)

/-- `func intersection(a, b []string) (c []string)`, with the storage: `c` starts nil. -/
def intersection (grow : Nat → Nat) (h : Heap) (a b : Slice) : Slice × Heap :=
  let m : GoMap Bool := (a.contents h).foldl (fun m item => m.set item true) []
  (List.range b.len).foldl
    (fun st i =>
      if (m.get (b.get st.2 i)).isSome then append grow st.2 st.1 (b.get st.2 i) else st)
    (Slice.empty, h)

/-- `func (o *OperationTree) Compute(listsOfAddresses map[string][]string) ([]string, error)`,
with the storage: the mapping holds slice headers, a leaf returns the header the mapping
holds, and the arrays are handed from one step to the next. -/
def Compute (grow : Nat → Nat) (o : OperationTree) (listsOfAddresses : GoMap Slice)
    (h : Heap) : Result ((Slice × Option String) × Heap) :=
  if o.Typ = SingleNode then
    match GoMap.get listsOfAddresses o.Value with
    | none => Result.ret ((Slice.empty, some (unknownConceptMsg o.Value listsOfAddresses)), h)
    | some val => Result.ret ((val, none), h)
  else if o.Typ = OrNode ∨ o.Typ = AndNode then
    match hl : o.LeftNode.assertTree with
    | none => Result.panic
    | some leftNode =>
      match Compute grow leftNode listsOfAddresses h with
      | Result.panic => Result.panic
      | Result.ret ((_, some err), h1) => Result.ret ((Slice.empty, some err), h1)
      | Result.ret ((a, none), h1) =>
        match hr : o.RightNode.assertTree with
        | none => Result.panic
        | some rightNode =>
          match Compute grow rightNode listsOfAddresses h1 with
          | Result.panic => Result.panic
          | Result.ret ((_, some err), h2) => Result.ret ((Slice.empty, some err), h2)
          | Result.ret ((b, none), h2) =>
            if o.Typ = OrNode then
              Result.ret (((union grow h2 a b).1, none), (union grow h2 a b).2)
            else if o.Typ = AndNode then
              Result.ret (((intersection grow h2 a b).1, none), (intersection grow h2 a b).2)
            else Result.ret ((Slice.empty, some "Unknown type"), h2)
  else
    Result.ret ((Slice.empty, some "Unknown type"), h)
termination_by sizeOf o
decreasing_by
  · cases o with
    | mk typ value left right =>
      cases left with
      | tree u =>
        simp only [OperationTree.LeftNode, Iface.assertTree, Option.some.injEq] at hl
        subst hl
        simp only [OperationTree.mk.sizeOf_spec, Iface.tree.sizeOf_spec]
        omega
      | nil => simp [OperationTree.LeftNode, Iface.assertTree] at hl
      | other => simp [OperationTree.LeftNode, Iface.assertTree] at hl
  · cases o with
    | mk typ value left right =>
      cases right with
      | tree u =>
        simp only [OperationTree.RightNode, Iface.assertTree, Option.some.injEq] at hr
        subst hr
        simp only [OperationTree.mk.sizeOf_spec, Iface.tree.sizeOf_spec]
        omega
      | nil => simp [OperationTree.RightNode, Iface.assertTree] at hr
      | other => simp [OperationTree.RightNode, Iface.assertTree] at hr

/-- The mapping from names to sequences that a mapping from names to slices stands for. -/
def view (listsOfAddresses : GoMap Slice) (h : Heap) : GoMap (List String) :=
  listsOfAddresses.map (fun e => (e.1, e.2.contents h))

end Mem

/-! ## Lemmas on maps, `union` and `intersection` -/

theorem GoMap.get_cons {V : Type} (m : GoMap V) (k x : String) (v : V) :
    GoMap.get ((k, v) :: m) x = if x = k then some v else GoMap.get m x := by
  unfold GoMap.get
  by_cases h : x = k
  · subst h
    simp [List.lookup]
  · have hb : (x == k) = false := by simpa using h
    simp [List.lookup, hb, h]

theorem GoMap.get_filter_ne {V : Type} (m : GoMap V) (k x : String) (h : x ≠ k) :
    GoMap.get (m.filter (fun e => e.1 != k)) x = GoMap.get m x := by
  induction m with
  | nil => rfl
  | cons e tl ih =>
    obtain ⟨k', v'⟩ := e
    by_cases hk : k' = k
    · subst hk
      have : List.filter (fun e => e.1 != k') ((k', v') :: tl)
          = List.filter (fun e => e.1 != k') tl := by
        simp [List.filter]
      rw [this, ih, GoMap.get_cons, if_neg h]
    · have hb : (k' != k) = true := by simpa using hk
      have : List.filter (fun e => e.1 != k) ((k', v') :: tl)
          = (k', v') :: List.filter (fun e => e.1 != k) tl := by
        simp only [List.filter, hb]
      rw [this, GoMap.get_cons, GoMap.get_cons, ih]

theorem GoMap.get_set {V : Type} (m : GoMap V) (k x : String) (v : V) :
    GoMap.get (GoMap.set m k v) x = if x = k then some v else GoMap.get m x := by
  unfold GoMap.set
  rw [GoMap.get_cons]
  by_cases h : x = k
  · simp [h]
  · simp only [if_neg h]
    exact GoMap.get_filter_ne m k x h

/-- The set built by `for _, item := range a { m[item] = true }` holds exactly the
elements of `a`, beside what the map held before. -/
theorem get_fold_set (a : List String) (m0 : GoMap Bool) (x : String) :
    (GoMap.get (a.foldl (fun m item => GoMap.set m item true) m0) x).isSome
      = (decide (x ∈ a) || (GoMap.get m0 x).isSome) := by
  induction a generalizing m0 with
  | nil => simp
  | cons y tl ih =>
    rw [List.foldl_cons, ih, GoMap.get_set]
    by_cases h : x = y
    · simp [h]
    · simp [h]

theorem get_fold_set_nil (a : List String) (x : String) :
    (GoMap.get (a.foldl (fun m item => GoMap.set m item true) ([] : GoMap Bool)) x).isSome
      = decide (x ∈ a) := by
  rw [get_fold_set]
  simp [GoMap.get]

theorem foldl_append_if (p : String → Bool) (b init : List String) :
    b.foldl (fun acc item => if p item then acc ++ [item] else acc) init
      = init ++ b.filter p := by
  induction b generalizing init with
  | nil => simp
  | cons y tl ih =>
    rw [List.foldl_cons, ih]
    by_cases h : p y
    · simp [h, List.filter]
    · simp [h, List.filter]

/-- Closed form of `union`: the first operand, then the elements of the second that do
not occur in the first. -/
theorem union_eq (a b : List String) :
    union a b = a ++ b.filter (fun x => !decide (x ∈ a)) := by
  unfold union
  have h := foldl_append_if
    (fun item => (GoMap.get (a.foldl (fun m item => GoMap.set m item true)
      ([] : GoMap Bool)) item).isNone) b a
  simp only at h ⊢
  rw [h]
  congr 1
  apply List.filter_congr
  intro x _
  have h2 := get_fold_set_nil a x
  cases hg : GoMap.get (a.foldl (fun m item => GoMap.set m item true) ([] : GoMap Bool)) x with
  | none => rw [hg] at h2; simp at h2; simp [h2]
  | some v => rw [hg] at h2; simp at h2; simp [h2]

/-- Closed form of `intersection`: the elements of the second operand that occur in the
first. -/
theorem intersection_eq (a b : List String) :
    intersection a b = b.filter (fun x => decide (x ∈ a)) := by
  unfold intersection
  have h := foldl_append_if
    (fun item => (GoMap.get (a.foldl (fun m item => GoMap.set m item true)
      ([] : GoMap Bool)) item).isSome) b []
  simp only at h ⊢
  rw [h, List.nil_append]
  apply List.filter_congr
  intro x _
  exact get_fold_set_nil a x

theorem mem_union (a b : List String) (x : String) : x ∈ union a b ↔ x ∈ a ∨ x ∈ b := by
  rw [union_eq]
  simp only [List.mem_append, List.mem_filter, Bool.not_eq_true', decide_eq_false_iff_not]
  constructor
  · rintro (h | ⟨h, _⟩)
    · exact Or.inl h
    · exact Or.inr h
  · rintro (h | h)
    · exact Or.inl h
    · by_cases ha : x ∈ a
      · exact Or.inl ha
      · exact Or.inr ⟨h, ha⟩

theorem mem_intersection (a b : List String) (x : String) :
    x ∈ intersection a b ↔ x ∈ a ∧ x ∈ b := by
  rw [intersection_eq]
  simp only [List.mem_filter, decide_eq_true_eq]
  exact And.comm

theorem nodup_union (a b : List String) (ha : a.Nodup) (hb : b.Nodup) : (union a b).Nodup := by
  rw [union_eq]
  refine List.Nodup.append ha (hb.filter _) ?_
  intro x hx hx'
  simp only [List.mem_filter, Bool.not_eq_true', decide_eq_false_iff_not] at hx'
  exact hx'.2 hx

/-! ## Lemmas on `Compute` -/

theorem compute_binary (typ : NodeType) (value : String) (l r : OperationTree)
    (m : GoMap (List String)) (a b : List String) (h : typ = OrNode ∨ typ = AndNode)
    (hl : Compute l m = Result.ret (a, none)) (hr : Compute r m = Result.ret (b, none)) :
    Compute (OperationTree.mk typ value (Iface.tree l) (Iface.tree r)) m
      = Result.ret (if typ = OrNode then union a b else intersection a b, none) := by
  have h0 : typ ≠ SingleNode := by
    rcases h with h | h <;> subst h <;> decide
  rw [Compute]
  simp only [OperationTree.Typ, OperationTree.LeftNode, OperationTree.RightNode,
    Iface.assertTree, if_neg h0, if_pos h, hl, hr]
  rcases h with h | h
  · simp [h]
  · subst h
    simp [AndNode, OrNode]

theorem compute_single (value : String) (l r : Iface OperationTree)
    (m : GoMap (List String)) :
    Compute (OperationTree.mk SingleNode value l r) m =
      match GoMap.get m value with
      | none => Result.ret ([], some (unknownConceptMsg value m))
      | some val => Result.ret (val, none) := by
  rw [Compute]
  simp only [OperationTree.Typ, OperationTree.Value, if_true]

theorem compute_single_known (value : String) (l r : Iface OperationTree)
    (m : GoMap (List String)) (val : List String) (h : GoMap.get m value = some val) :
    Compute (OperationTree.mk SingleNode value l r) m = Result.ret (val, none) := by
  rw [compute_single, h]

theorem compute_single_unknown (value : String) (l r : Iface OperationTree)
    (m : GoMap (List String)) (h : GoMap.get m value = none) :
    Compute (OperationTree.mk SingleNode value l r) m
      = Result.ret ([], some (unknownConceptMsg value m)) := by
  rw [compute_single, h]

theorem compute_left_error (typ : NodeType) (value : String) (l : OperationTree)
    (r : Iface OperationTree) (m : GoMap (List String)) (x : List String) (err : String)
    (h : typ = OrNode ∨ typ = AndNode) (hl : Compute l m = Result.ret (x, some err)) :
    Compute (OperationTree.mk typ value (Iface.tree l) r) m = Result.ret ([], some err) := by
  have h0 : typ ≠ SingleNode := by
    rcases h with h | h <;> subst h <;> decide
  rw [Compute]
  simp only [OperationTree.Typ, OperationTree.LeftNode, Iface.assertTree, if_neg h0, if_pos h, hl]

theorem compute_right_error (typ : NodeType) (value : String) (l r : OperationTree)
    (m : GoMap (List String)) (a x : List String) (err : String)
    (h : typ = OrNode ∨ typ = AndNode) (hl : Compute l m = Result.ret (a, none))
    (hr : Compute r m = Result.ret (x, some err)) :
    Compute (OperationTree.mk typ value (Iface.tree l) (Iface.tree r)) m
      = Result.ret ([], some err) := by
  have h0 : typ ≠ SingleNode := by
    rcases h with h | h <;> subst h <;> decide
  rw [Compute]
  simp only [OperationTree.Typ, OperationTree.LeftNode, OperationTree.RightNode,
    Iface.assertTree, if_neg h0, if_pos h, hl, hr]

/-- The message of an unknown concept, in closed form. -/
theorem unknownConceptMsg_eq {V : Type} (value : String) (m : GoMap V) :
    unknownConceptMsg value m = "Unknown concept : " ++ value ++ " expect one of : "
      ++ spaced (GoMap.keys m) := by
  unfold unknownConceptMsg
  generalize GoMap.keys m = ks
  generalize "Unknown concept : " ++ value ++ " expect one of : " = init
  induction ks generalizing init with
  | nil => simp [spaced]
  | cons k tl ih =>
    rw [List.foldl_cons, ih]
    simp [spaced, String.append_assoc]

theorem wellFormed_binary (typ : NodeType) (value : String) (left right : Iface OperationTree)
    (h0 : typ ≠ SingleNode) (h : WellFormed (OperationTree.mk typ value left right) = true) :
    (typ = OrNode ∨ typ = AndNode) ∧ ∃ l r, left = Iface.tree l ∧ right = Iface.tree r
      ∧ WellFormed l = true ∧ WellFormed r = true := by
  by_cases hb : typ = OrNode ∨ typ = AndNode
  · refine ⟨hb, ?_⟩
    cases left <;> cases right <;> simp [WellFormed, h0, hb] at h
    exact ⟨_, _, rfl, rfl, h.1, h.2⟩
  · cases left <;> cases right <;> simp [WellFormed, h0, hb] at h

theorem leafNames_single (value : String) (left right : Iface OperationTree) :
    leafNames (OperationTree.mk SingleNode value left right) = [value] := by
  cases left <;> cases right <;> simp [leafNames]

theorem leafNames_binary (typ : NodeType) (value : String) (l r : OperationTree)
    (h0 : typ ≠ SingleNode) (hb : typ = OrNode ∨ typ = AndNode) :
    leafNames (OperationTree.mk typ value (Iface.tree l) (Iface.tree r))
      = leafNames l ++ leafNames r := by
  simp [leafNames, h0, hb]

/-- On a well-formed tree `Compute` returns: with the error of the first leaf, left to
right, that the mapping does not know, and with a sequence when it knows them all. -/
theorem compute_wellFormed (m : GoMap (List String)) :
    ∀ t : OperationTree, WellFormed t = true →
      match (leafNames t).find? (fun n => (GoMap.get m n).isNone) with
      | some n => Compute t m = Result.ret ([], some (unknownConceptMsg n m))
      | none => ∃ a, Compute t m = Result.ret (a, none)
  | OperationTree.mk typ value left right, hwf => by
    by_cases h0 : typ = SingleNode
    · subst h0
      rw [leafNames_single]
      cases hg : GoMap.get m value with
      | none => simp [List.find?, hg, compute_single_unknown _ _ _ _ hg]
      | some val => simp [List.find?, hg, compute_single_known _ _ _ _ _ hg]
    · obtain ⟨hb, l, r, rfl, rfl, hl, hr⟩ := wellFormed_binary typ value left right h0 hwf
      have ihl := compute_wellFormed m l hl
      have ihr := compute_wellFormed m r hr
      rw [leafNames_binary typ value l r h0 hb, List.find?_append]
      cases hfl : (leafNames l).find? (fun n => (GoMap.get m n).isNone) with
      | some n =>
        rw [hfl] at ihl
        simp only [Option.or]
        exact compute_left_error typ value l _ m _ _ hb ihl
      | none =>
        rw [hfl] at ihl
        obtain ⟨a, ha⟩ := ihl
        simp only [Option.or]
        cases hfr : (leafNames r).find? (fun n => (GoMap.get m n).isNone) with
        | some n =>
          rw [hfr] at ihr
          exact compute_right_error typ value l r m a _ _ hb ha ihr
        | none =>
          rw [hfr] at ihr
          obtain ⟨b, hb'⟩ := ihr
          exact ⟨_, compute_binary typ value l r m a b hb ha hb'⟩

theorem mem_keys_iff {V : Type} (m : GoMap V) (k : String) :
    k ∈ GoMap.keys m ↔ (GoMap.get m k).isSome = true := by
  induction m with
  | nil => simp [GoMap.keys, GoMap.get]
  | cons e tl ih =>
    obtain ⟨k', v'⟩ := e
    rw [GoMap.get_cons]
    have hk : GoMap.keys ((k', v') :: tl) = k' :: GoMap.keys tl := rfl
    rw [hk, List.mem_cons, ih]
    by_cases h : k = k'
    · simp [h]
    · simp [h]

/-! ## Evaluation: leaves, unions, intersections -/

/-- C1. A leaf evaluates to exactly the sequence the mapping holds for its name, with no
error, when the name is a key of the mapping; when it is not, `Compute` returns an error
whose message starts with "Unknown concept : ". -/
theorem compute_leaf_lookup (m : GoMap (List String)) (n : String)
    (l r : Iface OperationTree) :
    (∀ val, GoMap.get m n = some val →
      Compute (OperationTree.mk SingleNode n l r) m = Result.ret (val, none)) ∧
    (GoMap.get m n = none → ∃ rest,
      Compute (OperationTree.mk SingleNode n l r) m
        = Result.ret ([], some ("Unknown concept : " ++ rest))) := by
  refine ⟨fun val h => compute_single_known n l r m val h, fun h => ?_⟩
  refine ⟨n ++ " expect one of : " ++ spaced (GoMap.keys m), ?_⟩
  rw [compute_single_unknown n l r m h, unknownConceptMsg_eq]
  simp only [String.append_assoc]

theorem compute_leaf_lookup_witness :
    Compute (mkLeaf "A") [("A", ["x", "y"]), ("B", [])] = Result.ret (["x", "y"], none) ∧
    ∃ rest, Compute (mkLeaf "C") [("A", ["x", "y"]), ("B", [])]
      = Result.ret ([], some ("Unknown concept : " ++ rest)) :=
  ⟨(compute_leaf_lookup [("A", ["x", "y"]), ("B", [])] "A" Iface.nil Iface.nil).1
      ["x", "y"] (by decide),
   (compute_leaf_lookup [("A", ["x", "y"]), ("B", [])] "C" Iface.nil Iface.nil).2 (by decide)⟩

/-- C5. On a well-formed tree that holds, anywhere, a leaf whose name is not a key of the
mapping, `Compute` returns an error. -/
theorem compute_unknown_leaf_fails (m : GoMap (List String)) (t : OperationTree)
    (hwf : WellFormed t = true)
    (h : ∃ n, n ∈ leafNames t ∧ GoMap.get m n = none) :
    ∃ msg, Compute t m = Result.ret ([], some msg) := by
  have hc := compute_wellFormed m t hwf
  obtain ⟨n, hn, hg⟩ := h
  cases hf : (leafNames t).find? (fun n => (GoMap.get m n).isNone) with
  | some n' =>
    rw [hf] at hc
    exact ⟨_, hc⟩
  | none =>
    rw [List.find?_eq_none] at hf
    have := hf n hn
    simp [hg] at this

theorem compute_unknown_leaf_fails_witness :
    ∃ msg, Compute (mkOr (mkLeaf "A") (mkAnd (mkLeaf "B") (mkLeaf "C")))
      [("A", ["x", "y"]), ("B", ["y", "z"])] = Result.ret ([], some msg) :=
  compute_unknown_leaf_fails [("A", ["x", "y"]), ("B", ["y", "z"])]
    (mkOr (mkLeaf "A") (mkAnd (mkLeaf "B") (mkLeaf "C"))) (by decide)
    ⟨"C", by decide, by decide⟩

/-- C7. The tree `Or(Leaf "A", And(Leaf "B", Leaf "C"))` on the mapping `A = ["x", "y"]`,
`B = ["y", "z"]`, `C = ["z", "w"]` evaluates to `["x", "y", "z"]` with no error. -/
theorem compute_scenario :
    Compute (mkOr (mkLeaf "A") (mkAnd (mkLeaf "B") (mkLeaf "C")))
      [("A", ["x", "y"]), ("B", ["y", "z"]), ("C", ["z", "w"])]
      = Result.ret (["x", "y", "z"], none) :=
  (compute_binary OrNode "" (mkLeaf "A") (mkAnd (mkLeaf "B") (mkLeaf "C")) _
    ["x", "y"] ["z"] (Or.inl rfl)
    (compute_single_known "A" Iface.nil Iface.nil _ _ (by decide))
    ((compute_binary AndNode "" (mkLeaf "B") (mkLeaf "C") _ ["y", "z"] ["z", "w"] (Or.inr rfl)
      (compute_single_known "B" Iface.nil Iface.nil _ _ (by decide))
      (compute_single_known "C" Iface.nil Iface.nil _ _ (by decide))).trans (by decide))).trans
    (by decide)

/-- C8. On a well-formed tree with a leaf name the mapping does not know, the error
message of `Compute` is "Unknown concept : ", the first such name from left to right,
" expect one of : ", and then every key of the mapping once, each behind one space. -/
theorem compute_error_message (m : GoMap (List String)) (t : OperationTree) (n : String)
    (hwf : WellFormed t = true) (hkeys : (GoMap.keys m).Nodup)
    (hfirst : (leafNames t).find? (fun n => (GoMap.get m n).isNone) = some n) :
    ∃ ks : List String, ks.Nodup ∧ (∀ k, k ∈ ks ↔ (GoMap.get m k).isSome = true)
      ∧ Compute t m = Result.ret ([], some
          ("Unknown concept : " ++ n ++ " expect one of : " ++ spaced ks)) := by
  refine ⟨GoMap.keys m, hkeys, mem_keys_iff m, ?_⟩
  have hc := compute_wellFormed m t hwf
  rw [hfirst] at hc
  rw [hc, unknownConceptMsg_eq]

theorem compute_error_message_witness :
    ∃ ks : List String, ks.Nodup
      ∧ (∀ k, k ∈ ks ↔ (GoMap.get [("A", ["x", "y"]), ("B", ["y", "z"])] k).isSome = true)
      ∧ Compute (mkOr (mkLeaf "A") (mkAnd (mkLeaf "B") (mkLeaf "C")))
          [("A", ["x", "y"]), ("B", ["y", "z"])]
        = Result.ret ([], some ("Unknown concept : " ++ "C" ++ " expect one of : " ++ spaced ks)) :=
  compute_error_message [("A", ["x", "y"]), ("B", ["y", "z"])]
    (mkOr (mkLeaf "A") (mkAnd (mkLeaf "B") (mkLeaf "C"))) "C" (by decide) (by decide) (by decide)

/-! ## Decoding -/

theorem unmarshal_no_type (o : OperationTree) (fields : GoMap JSONValue)
    (h : GoMap.get fields "type" = none ∨ GoMap.get fields "type" = some JSONValue.null) :
    UnmarshalJSON o (Payload.valid (JSONValue.object fields))
      = Result.ret (o, some "No type defined") := by
  rw [UnmarshalJSON]
  rcases h with h | h <;> simp [jsonUnmarshalMap, h]

theorem unmarshal_type_not_number (o : OperationTree) (fields : GoMap JSONValue)
    (j : JSONValue) (h : GoMap.get fields "type" = some j) (hnull : j ≠ JSONValue.null)
    (hnum : ∀ x, j ≠ JSONValue.number x) :
    UnmarshalJSON o (Payload.valid (JSONValue.object fields)) = Result.panic := by
  rw [UnmarshalJSON]
  cases j with
  | null => exact absurd rfl hnull
  | number x => exact absurd rfl (hnum x)
  | bool b => simp [jsonUnmarshalMap, h]
  | string b => simp [jsonUnmarshalMap, h]
  | array b => simp [jsonUnmarshalMap, h]
  | object b => simp [jsonUnmarshalMap, h]

theorem unmarshal_unknown_type (o : OperationTree) (fields : GoMap JSONValue) (x : Float64)
    (h : GoMap.get fields "type" = some (JSONValue.number x))
    (hx : nodeTypeOfInt x.toInt = none) :
    UnmarshalJSON o (Payload.valid (JSONValue.object fields))
      = Result.ret (o, some "Unknown type") := by
  rw [UnmarshalJSON]
  simp [jsonUnmarshalMap, h, hx]

theorem unmarshal_single (o : OperationTree) (fields : GoMap JSONValue) (x : Float64)
    (h : GoMap.get fields "type" = some (JSONValue.number x))
    (hx : nodeTypeOfInt x.toInt = some SingleNode) :
    UnmarshalJSON o (Payload.valid (JSONValue.object fields))
      = Result.ret (OperationTree.mk SingleNode (valueOfField (GoMap.get fields "value"))
          o.LeftNode o.RightNode, none) := by
  rw [UnmarshalJSON]
  simp [jsonUnmarshalMap, h, hx]

theorem unmarshal_binary (o : OperationTree) (fields lf rf : GoMap JSONValue) (x : Float64)
    (typ : NodeType) (lt rt : OperationTree)
    (h : GoMap.get fields "type" = some (JSONValue.number x))
    (hx : nodeTypeOfInt x.toInt = some typ) (hb : typ = OrNode ∨ typ = AndNode)
    (hl : GoMap.get fields "left_node" = some (JSONValue.object lf))
    (hlt : UnmarshalJSON OperationTree.zero (Payload.valid (JSONValue.object lf))
      = Result.ret (lt, none))
    (hr : GoMap.get fields "right_node" = some (JSONValue.object rf))
    (hrt : UnmarshalJSON OperationTree.zero (Payload.valid (JSONValue.object rf))
      = Result.ret (rt, none)) :
    UnmarshalJSON o (Payload.valid (JSONValue.object fields))
      = Result.ret (OperationTree.mk typ o.Value (Iface.tree lt) (Iface.tree rt), none) := by
  have h0 : typ ≠ SingleNode := by
    rcases hb with hb | hb <;> subst hb <;> decide
  have hb' : typ = AndNode ∨ typ = OrNode := hb.symm
  rw [UnmarshalJSON]
  simp only [jsonUnmarshalMap, h, hx, if_neg h0, if_pos hb']
  split
  · rename_i lf' hl'
    rw [hl] at hl'
    simp only [Option.some.injEq, JSONValue.object.injEq] at hl'
    subst hl'
    simp only [hlt]
    split
    · rename_i rf' hr'
      rw [hr] at hr'
      simp only [Option.some.injEq, JSONValue.object.injEq] at hr'
      subst hr'
      simp only [hrt]
    · rename_i hne
      exact absurd hr (hne rf)
  · rename_i hne
    exact absurd hl (hne lf)

/-! ## Encoding then decoding -/

theorem compute_left_panic (typ : NodeType) (value : String) (l : OperationTree)
    (r : Iface OperationTree) (m : GoMap (List String))
    (h : typ = OrNode ∨ typ = AndNode) (hl : Compute l m = Result.panic) :
    Compute (OperationTree.mk typ value (Iface.tree l) r) m = Result.panic := by
  have h0 : typ ≠ SingleNode := by
    rcases h with h | h <;> subst h <;> decide
  rw [Compute]
  simp only [OperationTree.Typ, OperationTree.LeftNode, Iface.assertTree, if_neg h0, if_pos h, hl]

theorem compute_right_panic (typ : NodeType) (value : String) (l r : OperationTree)
    (m : GoMap (List String)) (a : List String)
    (h : typ = OrNode ∨ typ = AndNode) (hl : Compute l m = Result.ret (a, none))
    (hr : Compute r m = Result.panic) :
    Compute (OperationTree.mk typ value (Iface.tree l) (Iface.tree r)) m = Result.panic := by
  have h0 : typ ≠ SingleNode := by
    rcases h with h | h <;> subst h <;> decide
  rw [Compute]
  simp only [OperationTree.Typ, OperationTree.LeftNode, OperationTree.RightNode,
    Iface.assertTree, if_neg h0, if_pos h, hl, hr]

/-- The result at an `OrNode` or `AndNode` depends on the children only through their
own results, and not on the node's `Value`. -/
theorem compute_binary_congr (typ : NodeType) (v v' : String) (l r l' r' : OperationTree)
    (m : GoMap (List String)) (h : typ = OrNode ∨ typ = AndNode)
    (hl : Compute l' m = Compute l m) (hr : Compute r' m = Compute r m) :
    Compute (OperationTree.mk typ v' (Iface.tree l') (Iface.tree r')) m
      = Compute (OperationTree.mk typ v (Iface.tree l) (Iface.tree r)) m := by
  cases hcl : Compute l m with
  | panic =>
    rw [compute_left_panic typ v l _ m h hcl, compute_left_panic typ v' l' _ m h (hl.trans hcl)]
  | ret pl =>
    obtain ⟨a, el⟩ := pl
    cases el with
    | some err =>
      rw [compute_left_error typ v l _ m a err h hcl,
        compute_left_error typ v' l' _ m a err h (hl.trans hcl)]
    | none =>
      cases hcr : Compute r m with
      | panic =>
        rw [compute_right_panic typ v l r m a h hcl hcr,
          compute_right_panic typ v' l' r' m a h (hl.trans hcl) (hr.trans hcr)]
      | ret pr =>
        obtain ⟨b, er⟩ := pr
        cases er with
        | some err =>
          rw [compute_right_error typ v l r m a b err h hcl hcr,
            compute_right_error typ v' l' r' m a b err h (hl.trans hcl) (hr.trans hcr)]
        | none =>
          rw [compute_binary typ v l r m a b h hcl hcr,
            compute_binary typ v' l' r' m a b h (hl.trans hcl) (hr.trans hcr)]

theorem wellFormedStrict_cases (typ : NodeType) (value : String)
    (left right : Iface OperationTree)
    (h : WellFormedStrict (OperationTree.mk typ value left right) = true) :
    (typ = SingleNode ∧ left = Iface.nil ∧ right = Iface.nil)
    ∨ ((typ = OrNode ∨ typ = AndNode) ∧ ∃ l r, left = Iface.tree l ∧ right = Iface.tree r
        ∧ WellFormedStrict l = true ∧ WellFormedStrict r = true) := by
  by_cases h0 : typ = SingleNode
  · left
    cases left <;> cases right <;> simp [WellFormedStrict, h0] at h
    exact ⟨h0, rfl, rfl⟩
  · right
    by_cases hb : typ = OrNode ∨ typ = AndNode
    · refine ⟨hb, ?_⟩
      cases left <;> cases right <;> simp [WellFormedStrict, h0, hb] at h
      exact ⟨_, _, rfl, rfl, h.1, h.2⟩
    · cases left <;> cases right <;> simp [WellFormedStrict, h0, hb] at h

theorem utf8CoerceAux_of_valid :
    ∀ (cs : List Char) (k : Nat), validUTF8Aux k cs = true → utf8CoerceAux k cs = cs
  | [], k, _ => by cases k <;> rfl
  | c :: cs, k + 1, h => by
    rw [validUTF8Aux] at h
    rw [utf8CoerceAux, utf8CoerceAux_of_valid cs k h]
  | c :: cs, 0, h => by
    rw [validUTF8Aux] at h
    rw [utf8CoerceAux]
    cases hl : utf8Len (c :: cs) with
    | none => rw [hl] at h; simp at h
    | some n =>
      rw [hl] at h
      simp only at h ⊢
      rw [utf8CoerceAux_of_valid cs (n - 1) h]

/-- A string that is valid UTF-8 comes back from its JSON encoding as it is. -/
theorem utf8Coerce_of_valid (s : String) (h : validUTF8 s = true) : utf8Coerce s = s := by
  unfold utf8Coerce
  unfold validUTF8 at h
  rw [utf8CoerceAux_of_valid s.data 0 h]

theorem marshal_single (v : String) :
    Marshal (OperationTree.mk SingleNode v Iface.nil Iface.nil)
      = some (JSONValue.object ([("type", JSONValue.number (Float64.ofInt SingleNode))]
          ++ (if v = "" then [] else [("value", JSONValue.string (utf8Coerce v))]))) := by
  simp [Marshal, SingleNode]

theorem marshal_binary (typ : NodeType) (v : String) (l r : OperationTree)
    (jl jr : JSONValue) (hb : typ = OrNode ∨ typ = AndNode)
    (hl : Marshal l = some jl) (hr : Marshal r = some jr) :
    Marshal (OperationTree.mk typ v (Iface.tree l) (Iface.tree r))
      = some (JSONValue.object ([("type", JSONValue.number (Float64.ofInt typ))]
          ++ (if v = "" then [] else [("value", JSONValue.string (utf8Coerce v))])
          ++ [("left_node", jl)] ++ [("right_node", jr)])) := by
  have hsmall : typ.natAbs ≤ 2 ^ 53 := by
    rcases hb with hb | hb <;> subst hb <;> decide
  have hsmall' : typ.natAbs ≤ 9007199254740992 := hsmall
  simp [Marshal, hl, hr, hsmall']

theorem nodeTypeOfInt_ofInt (typ : NodeType)
    (h : typ = SingleNode ∨ typ = OrNode ∨ typ = AndNode) :
    nodeTypeOfInt (Float64.ofInt typ).toInt = some typ := by
  rcases h with h | h | h <;> subst h <;> decide

/-- Decoding what `Marshal` writes for a tree whose leaves have no children and names of
valid UTF-8 gives, on any receiver and with no error, a tree that `Compute` cannot tell
from the original. -/
theorem marshal_unmarshal_compute :
    ∀ t : OperationTree, WellFormedStrict t = true →
      (∀ n, n ∈ leafNames t → validUTF8 n = true) →
      ∃ fields, Marshal t = some (JSONValue.object fields)
        ∧ ∀ o, ∃ t', UnmarshalJSON o (Payload.valid (JSONValue.object fields))
            = Result.ret (t', none)
          ∧ ∀ m, Compute t' m = Compute t m
  | OperationTree.mk typ v left right, hwf, hnames => by
    rcases wellFormedStrict_cases typ v left right hwf with
      ⟨rfl, rfl, rfl⟩ | ⟨hb, l, r, rfl, rfl, hl, hr⟩
    · have hvalid : utf8Coerce v = v :=
        utf8Coerce_of_valid v (hnames v (by rw [leafNames_single]; exact List.mem_singleton.mpr rfl))
      refine ⟨_, marshal_single v, fun o => ?_⟩
      refine ⟨_, unmarshal_single o _ (Float64.ofInt SingleNode) rfl (by decide), fun m => ?_⟩
      have hv : valueOfField (GoMap.get ([("type", JSONValue.number (Float64.ofInt SingleNode))]
          ++ (if v = "" then [] else [("value", JSONValue.string (utf8Coerce v))])) "value")
          = v := by
        by_cases h : v = ""
        · subst h
          decide
        · simp [h, GoMap.get, List.lookup, valueOfField, hvalid]
      rw [hv, compute_single, compute_single]
    · have h0 : typ ≠ SingleNode := by
        rcases hb with hb | hb <;> subst hb <;> decide
      have hleaves := leafNames_binary typ v l r h0 hb
      obtain ⟨lf, hml, hdl⟩ := marshal_unmarshal_compute l hl
        (fun n hn => hnames n (by rw [hleaves]; exact List.mem_append_left _ hn))
      obtain ⟨rf, hmr, hdr⟩ := marshal_unmarshal_compute r hr
        (fun n hn => hnames n (by rw [hleaves]; exact List.mem_append_right _ hn))
      refine ⟨_, marshal_binary typ v l r _ _ hb hml hmr, fun o => ?_⟩
      obtain ⟨lt, hlt, hcl⟩ := hdl OperationTree.zero
      obtain ⟨rt, hrt, hcr⟩ := hdr OperationTree.zero
      have h3 : typ = SingleNode ∨ typ = OrNode ∨ typ = AndNode := Or.inr hb
      refine ⟨_, unmarshal_binary o _ lf rf (Float64.ofInt typ) typ lt rt rfl
        (nodeTypeOfInt_ofInt typ h3) hb ?_ hlt ?_ hrt, fun m => ?_⟩
      · by_cases h : v = "" <;> simp [h, GoMap.get, List.lookup]
      · by_cases h : v = "" <;> simp [h, GoMap.get, List.lookup]
      · exact compute_binary_congr typ v o.Value l r lt rt m hb (hcl m) (hcr m)

/-- C6, as the code has it. For a well-formed tree (leaves without children, `OrNode` and
`AndNode` with two well-formed `OperationTree` children) whose leaf names are valid UTF-8,
the tagged encoding exists, `UnmarshalJSON` decodes it on any receiver with no error, and
the decoded tree has, on every mapping, the same result of `Compute` as the original:
same sequence, same error. -/
theorem roundtrip_compute (t : OperationTree) (hwf : WellFormedStrict t = true)
    (hnames : ∀ n, n ∈ leafNames t → validUTF8 n = true) :
    ∃ j, Marshal t = some j
      ∧ ∀ o, ∃ t', UnmarshalJSON o (Payload.valid j) = Result.ret (t', none)
        ∧ ∀ m, Compute t' m = Compute t m := by
  obtain ⟨fields, hm, hd⟩ := marshal_unmarshal_compute t hwf hnames
  exact ⟨_, hm, hd⟩

theorem roundtrip_compute_witness :
    ∃ j, Marshal (mkOr (mkLeaf "A") (mkAnd (mkLeaf "B") (mkLeaf "C"))) = some j
      ∧ ∀ o, ∃ t', UnmarshalJSON o (Payload.valid j) = Result.ret (t', none)
        ∧ ∀ m, Compute t' m = Compute (mkOr (mkLeaf "A") (mkAnd (mkLeaf "B") (mkLeaf "C"))) m :=
  roundtrip_compute (mkOr (mkLeaf "A") (mkAnd (mkLeaf "B") (mkLeaf "C"))) (by decide)
    (by decide)

/-- C6, as stated, fails. The leaf whose name is the single byte `FF` is well formed and
evaluates to `["a"]` on the mapping that holds `["a"]` under that name; its encoding
carries the name as U+FFFD (the bytes `EF BF BD`), `UnmarshalJSON` decodes it with no
error as the leaf of that name, and on the same mapping the decoded leaf evaluates to an
error. -/
theorem roundtrip_loses_invalid_name :
    WellFormedStrict (mkLeaf "\xff") = true
    ∧ Compute (mkLeaf "\xff") [("\xff", ["a"])] = Result.ret (["a"], none)
    ∧ Marshal (mkLeaf "\xff") = some (JSONValue.object
        [("type", JSONValue.number ⟨0, 0⟩), ("value", JSONValue.string "\xef\xbf\xbd")])
    ∧ UnmarshalJSON OperationTree.zero (Payload.valid (JSONValue.object
        [("type", JSONValue.number ⟨0, 0⟩), ("value", JSONValue.string "\xef\xbf\xbd")]))
      = Result.ret (mkLeaf "\xef\xbf\xbd", none)
    ∧ Compute (mkLeaf "\xef\xbf\xbd") [("\xff", ["a"])]
      = Result.ret ([], some "Unknown concept : \xef\xbf\xbd expect one of :  \xff") := by
  refine ⟨by decide, ?_, ?_, ?_, ?_⟩
  · exact compute_single_known "\xff" Iface.nil Iface.nil _ _ (by decide)
  · have hc : utf8Coerce "\xff" = "\xef\xbf\xbd" := by decide
    have hne : ¬ ("\xff" = "") := by decide
    have hm := marshal_single "\xff"
    rw [if_neg hne, hc] at hm
    exact hm
  · exact unmarshal_single OperationTree.zero _ ⟨0, 0⟩ rfl (by decide)
  · exact (compute_single_unknown "\xef\xbf\xbd" Iface.nil Iface.nil _ (by decide)).trans
      (by decide)

/-- C9. A record without `type`, or with `type` null, is refused with the error
"No type defined" and the receiver is left as it was; a record whose `type` is a string
or a boolean makes `UnmarshalJSON` panic on the assertion `v["type"].(float64)`, so it
returns no error value. -/
theorem unmarshal_type_field_cases (o : OperationTree) :
    UnmarshalJSON o (Payload.valid (JSONValue.object []))
        = Result.ret (o, some "No type defined")
    ∧ UnmarshalJSON o (Payload.valid (JSONValue.object [("type", JSONValue.null)]))
        = Result.ret (o, some "No type defined")
    ∧ UnmarshalJSON o (Payload.valid (JSONValue.object [("type", JSONValue.string "leaf")]))
        = Result.panic
    ∧ UnmarshalJSON o (Payload.valid (JSONValue.object [("type", JSONValue.bool true)]))
        = Result.panic := by
  refine ⟨?_, ?_, ?_, ?_⟩
  · exact unmarshal_no_type o [] (Or.inl rfl)
  · exact unmarshal_no_type o _ (Or.inr rfl)
  · exact unmarshal_type_not_number o _ (JSONValue.string "leaf") rfl (by simp) (by simp)
  · exact unmarshal_type_not_number o _ (JSONValue.bool true) rfl (by simp) (by simp)

/-- C10. A record whose `type` is 0.5 is decoded, with no error, as a leaf, and a record
whose `type` is 2.7 (the `float64` nearest to it) with two leaf children is decoded, with
no error, as an `AndNode`: the conversion `int(...)` drops the fractional part before the
`switch`. A `type` of 3 or of -1 is refused with "Unknown type". -/
theorem unmarshal_fractional_type (o : OperationTree) :
    UnmarshalJSON o (Payload.valid (JSONValue.object
        [("type", JSONValue.number ⟨1, -1⟩), ("value", JSONValue.string "A")]))
      = Result.ret (OperationTree.mk SingleNode "A" o.LeftNode o.RightNode, none)
    ∧ UnmarshalJSON o (Payload.valid (JSONValue.object
        [("type", JSONValue.number ⟨3039929748475085, -50⟩),
         ("left_node", JSONValue.object
            [("type", JSONValue.number ⟨0, 0⟩), ("value", JSONValue.string "A")]),
         ("right_node", JSONValue.object
            [("type", JSONValue.number ⟨0, 0⟩), ("value", JSONValue.string "B")])]))
      = Result.ret (OperationTree.mk AndNode o.Value
          (Iface.tree (mkLeaf "A")) (Iface.tree (mkLeaf "B")), none)
    ∧ UnmarshalJSON o (Payload.valid (JSONValue.object [("type", JSONValue.number ⟨3, 0⟩)]))
      = Result.ret (o, some "Unknown type")
    ∧ UnmarshalJSON o (Payload.valid (JSONValue.object [("type", JSONValue.number ⟨-1, 0⟩)]))
      = Result.ret (o, some "Unknown type") := by
  refine ⟨?_, ?_, ?_, ?_⟩
  · exact unmarshal_single o _ ⟨1, -1⟩ rfl (by decide)
  · exact unmarshal_binary o _
      [("type", JSONValue.number ⟨0, 0⟩), ("value", JSONValue.string "A")]
      [("type", JSONValue.number ⟨0, 0⟩), ("value", JSONValue.string "B")]
      ⟨3039929748475085, -50⟩ AndNode (mkLeaf "A") (mkLeaf "B") rfl (by decide) (Or.inr rfl)
      rfl (unmarshal_single OperationTree.zero _ ⟨0, 0⟩ rfl (by decide))
      rfl (unmarshal_single OperationTree.zero _ ⟨0, 0⟩ rfl (by decide))
  · exact unmarshal_unknown_type o _ ⟨3, 0⟩ rfl (by decide)
  · exact unmarshal_unknown_type o _ ⟨-1, 0⟩ rfl (by decide)

/-! ## Further properties of evaluation -/

theorem compute_else_branch (m : GoMap (List String)) (typ : NodeType) (value : String)
    (l r : Iface OperationTree) (h0 : typ ≠ SingleNode)
    (hb : ¬ (typ = OrNode ∨ typ = AndNode)) :
    Compute (OperationTree.mk typ value l r) m = Result.ret ([], some "Unknown type") := by
  rw [Compute]
  simp only [OperationTree.Typ, if_neg h0, if_neg hb]

/-- C13. On a node whose `Type` is none of `SingleNode`, `OrNode`, `AndNode`, `Compute`
returns the error "Unknown type", whatever the name, the children and the mapping. -/
theorem compute_unknown_type (m : GoMap (List String)) (typ : NodeType) (value : String)
    (l r : Iface OperationTree)
    (h0 : typ ≠ SingleNode) (h1 : typ ≠ OrNode) (h2 : typ ≠ AndNode) :
    Compute (OperationTree.mk typ value l r) m = Result.ret ([], some "Unknown type") := by
  apply compute_else_branch m typ value l r h0
  rintro (h | h)
  · exact h1 h
  · exact h2 h

theorem compute_unknown_type_witness :
    Compute (OperationTree.mk 7 "A" (Iface.tree (mkLeaf "A")) Iface.other) [("A", ["x"])]
      = Result.ret ([], some "Unknown type") :=
  compute_unknown_type [("A", ["x"])] 7 "A" (Iface.tree (mkLeaf "A")) Iface.other
    (by decide) (by decide) (by decide)

theorem compute_error_nil (m : GoMap (List String)) (t : OperationTree) (a : List String)
    (err : String) (h : Compute t m = Result.ret (a, some err)) : a = [] := by
  obtain ⟨typ, value, left, right⟩ := t
  by_cases h0 : typ = SingleNode
  · subst h0
    rw [compute_single] at h
    cases hg : GoMap.get m value with
    | none =>
      rw [hg] at h
      simp only [Result.ret.injEq, Prod.mk.injEq] at h
      exact h.1.symm
    | some val =>
      rw [hg] at h
      simp at h
  · by_cases hb : typ = OrNode ∨ typ = AndNode
    · cases left with
      | tree l =>
        cases hcl : Compute l m with
        | panic =>
          rw [compute_left_panic typ value l _ m hb hcl] at h
          simp at h
        | ret pl =>
          obtain ⟨x, el⟩ := pl
          cases el with
          | some e =>
            rw [compute_left_error typ value l _ m x e hb hcl] at h
            simp only [Result.ret.injEq, Prod.mk.injEq] at h
            exact h.1.symm
          | none =>
            cases right with
            | tree r =>
              cases hcr : Compute r m with
              | panic =>
                rw [compute_right_panic typ value l r m x hb hcl hcr] at h
                simp at h
              | ret pr =>
                obtain ⟨y, er⟩ := pr
                cases er with
                | some e =>
                  rw [compute_right_error typ value l r m x y e hb hcl hcr] at h
                  simp only [Result.ret.injEq, Prod.mk.injEq] at h
                  exact h.1.symm
                | none =>
                  rw [compute_binary typ value l r m x y hb hcl hcr] at h
                  simp at h
            | nil =>
              rw [Compute] at h
              simp [OperationTree.Typ, OperationTree.LeftNode, OperationTree.RightNode,
                Iface.assertTree, h0, hb, hcl] at h
            | other =>
              rw [Compute] at h
              simp [OperationTree.Typ, OperationTree.LeftNode, OperationTree.RightNode,
                Iface.assertTree, h0, hb, hcl] at h
      | nil =>
        rw [Compute] at h
        simp [OperationTree.Typ, OperationTree.LeftNode, Iface.assertTree, h0, hb] at h
      | other =>
        rw [Compute] at h
        simp [OperationTree.Typ, OperationTree.LeftNode, Iface.assertTree, h0, hb] at h
    · rw [compute_else_branch m typ value left right h0 hb] at h
      simp only [Result.ret.injEq, Prod.mk.injEq] at h
      exact h.1.symm

/-- C14. Whatever `Compute` returns beside an error is the empty sequence, and a
non-empty sequence is returned only with a nil error. -/
theorem compute_no_partial_result (m : GoMap (List String)) (t : OperationTree)
    (a : List String) (e : Option String) (h : Compute t m = Result.ret (a, e)) :
    (e ≠ none → a = []) ∧ (a ≠ [] → e = none) := by
  cases e with
  | none => exact ⟨fun hne => absurd rfl hne, fun _ => rfl⟩
  | some err =>
    have ha := compute_error_nil m t a err h
    exact ⟨fun _ => ha, fun hne => absurd ha hne⟩

theorem compute_no_partial_result_witness :
    Compute (mkOr (mkLeaf "A") (mkAnd (mkLeaf "B") (mkLeaf "C")))
        [("A", ["x", "y"]), ("B", ["y", "z"])]
      = Result.ret ([], some "Unknown concept : C expect one of :  A B")
    ∧ ((some "Unknown concept : C expect one of :  A B" : Option String) ≠ none
        → ([] : List String) = [])
    ∧ (([] : List String) ≠ [] →
        (some "Unknown concept : C expect one of :  A B" : Option String) = none) := by
  have h : Compute (mkOr (mkLeaf "A") (mkAnd (mkLeaf "B") (mkLeaf "C")))
      [("A", ["x", "y"]), ("B", ["y", "z"])]
      = Result.ret ([], some "Unknown concept : C expect one of :  A B") :=
    (compute_right_error OrNode "" (mkLeaf "A") (mkAnd (mkLeaf "B") (mkLeaf "C")) _
      ["x", "y"] [] _ (Or.inl rfl)
      (compute_single_known "A" Iface.nil Iface.nil _ _ (by decide))
      (compute_right_error AndNode "" (mkLeaf "B") (mkLeaf "C") _ ["y", "z"] [] _ (Or.inr rfl)
        (compute_single_known "B" Iface.nil Iface.nil _ _ (by decide))
        (compute_single_unknown "C" Iface.nil Iface.nil _ (by decide)))).trans (by decide)
  exact ⟨h, compute_no_partial_result _ _ _ _ h⟩

/-! ## The intersection against its naive design -/

theorem linearScan_eq (a : List String) (x : String) : linearScan a x = decide (x ∈ a) := by
  induction a with
  | nil => simp [linearScan]
  | cons y tl ih =>
    rw [linearScan, ih]
    by_cases h : y = x
    · simp [h]
    · have h' : ¬ x = y := fun e => h e.symm
      simp [h, h']

theorem intersectionNaive_eq (a b : List String) :
    intersectionNaive a b = b.filter (fun x => decide (x ∈ a)) := by
  induction b with
  | nil => simp [intersectionNaive]
  | cons x tl ih =>
    rw [intersectionNaive, ih, linearScan_eq]
    by_cases h : x ∈ a
    · simp [h, List.filter]
    · simp [h, List.filter]

/-- C18. The `intersection` of the code, which tests membership in a map built over its
first operand, returns what the naive design returns: the elements of the second operand
that a linear scan finds in the first, in the order and with the multiplicity they have
in the second. -/
theorem intersection_refines_naive (a b : List String) :
    intersection a b = intersectionNaive a b := by
  rw [intersection_eq, intersectionNaive_eq]

theorem nodup_intersection (a b : List String) (hb : b.Nodup) : (intersection a b).Nodup := by
  rw [intersection_eq]
  exact hb.filter _

/-! ## `ConceptsToString` -/

theorem conceptsToString_fold (n : Nat) :
    ∀ (cs : List Concept) (i : Nat) (acc : List UInt8), n = i + cs.length →
      (cs.enumFrom i).foldl
        (fun str p =>
          let str := str ++ p.2.EncryptedConcept
          if (p.1 : Int) ≠ (n : Int) - 1 then str ++ [58] else str) acc
        = acc ++ joinWithColon cs
  | [], i, acc, _ => by simp [joinWithColon]
  | [c], i, acc, hn => by
    have h : (i : Int) = (n : Int) - 1 := by
      simp only [List.length_singleton] at hn
      omega
    simp [List.enumFrom, joinWithColon, h]
  | c :: d :: tl, i, acc, hn => by
    have h : (i : Int) ≠ (n : Int) - 1 := by
      simp only [List.length_cons] at hn
      omega
    have ih := conceptsToString_fold n (d :: tl) (i + 1)
      (acc ++ c.EncryptedConcept ++ [58]) (by simp only [List.length_cons] at hn ⊢; omega)
    rw [List.enumFrom, List.foldl_cons]
    simp only [h, ne_eq, not_false_eq_true, if_true]
    rw [ih, joinWithColon]
    simp only [List.append_assoc]

/-- C17. `ConceptsToString` returns the payloads in list order with a single ":" between
each two consecutive payloads and none before the first or after the last; the empty list
gives the empty string and a list of one concept gives its payload. -/
theorem conceptsToString_join (concepts : List Concept) :
    ConceptsToString concepts = joinWithColon concepts
    ∧ ConceptsToString [] = []
    ∧ ∀ c : Concept, ConceptsToString [c] = c.EncryptedConcept := by
  have h : ∀ cs : List Concept, ConceptsToString cs = joinWithColon cs := by
    intro cs
    have := conceptsToString_fold cs.length cs 0 [] (by simp)
    simpa [ConceptsToString, List.enum] using this
  refine ⟨h concepts, ?_, ?_⟩
  · rw [h]
    rfl
  · intro c
    rw [h]
    rfl

/-! ## Decoding leaves and binary nodes -/

/-- C12. A record whose `type` is 0 is decoded with no error as a leaf: its name is the
`value` field when that is a string and the empty name when `value` is absent (or no
string), and a leaf decoded without `value` fails in `Compute` with an "Unknown concept"
error on every mapping without the empty key. -/
theorem unmarshal_leaf (o : OperationTree) (fields : GoMap JSONValue) (x : Float64)
    (h : GoMap.get fields "type" = some (JSONValue.number x)) (hx : x.toInt = 0) :
    UnmarshalJSON o (Payload.valid (JSONValue.object fields))
      = Result.ret (OperationTree.mk SingleNode (valueOfField (GoMap.get fields "value"))
          o.LeftNode o.RightNode, none)
    ∧ (∀ s, GoMap.get fields "value" = some (JSONValue.string s) →
        valueOfField (GoMap.get fields "value") = s)
    ∧ (GoMap.get fields "value" = none →
        valueOfField (GoMap.get fields "value") = ""
        ∧ ∀ m : GoMap (List String), GoMap.get m "" = none → ∃ rest,
          Compute (OperationTree.mk SingleNode (valueOfField (GoMap.get fields "value"))
            o.LeftNode o.RightNode) m
            = Result.ret ([], some ("Unknown concept : " ++ rest))) := by
  have hn : nodeTypeOfInt x.toInt = some SingleNode := by
    rw [hx]
    rfl
  refine ⟨unmarshal_single o fields x h hn, ?_, ?_⟩
  · intro s hs
    rw [hs]
    rfl
  · intro hv
    rw [hv]
    refine ⟨rfl, fun m hm => ?_⟩
    refine ⟨"" ++ " expect one of : " ++ spaced (GoMap.keys m), ?_⟩
    have hv' : valueOfField none = "" := rfl
    rw [hv', compute_single_unknown "" _ _ m hm, unknownConceptMsg_eq]
    simp only [String.append_assoc]

theorem unmarshal_leaf_witness :
    UnmarshalJSON (mkOr (mkLeaf "A") (mkLeaf "B"))
        (Payload.valid (JSONValue.object [("type", JSONValue.number ⟨0, 0⟩)]))
      = Result.ret (OperationTree.mk SingleNode "" (Iface.tree (mkLeaf "A"))
          (Iface.tree (mkLeaf "B")), none)
    ∧ UnmarshalJSON OperationTree.zero
        (Payload.valid (JSONValue.object
          [("type", JSONValue.number ⟨0, 0⟩), ("value", JSONValue.string "A")]))
      = Result.ret (mkLeaf "A", none) :=
  ⟨(unmarshal_leaf (mkOr (mkLeaf "A") (mkLeaf "B")) [("type", JSONValue.number ⟨0, 0⟩)]
      ⟨0, 0⟩ rfl (by decide)).1,
   (unmarshal_leaf OperationTree.zero
      [("type", JSONValue.number ⟨0, 0⟩), ("value", JSONValue.string "A")]
      ⟨0, 0⟩ rfl (by decide)).1⟩

theorem unmarshal_left_not_record (o : OperationTree) (fields : GoMap JSONValue)
    (x : Float64) (typ : NodeType)
    (h : GoMap.get fields "type" = some (JSONValue.number x))
    (hx : nodeTypeOfInt x.toInt = some typ) (hb : typ = OrNode ∨ typ = AndNode)
    (hl : ∀ lf, GoMap.get fields "left_node" ≠ some (JSONValue.object lf)) :
    UnmarshalJSON o (Payload.valid (JSONValue.object fields)) = Result.panic := by
  have h0 : typ ≠ SingleNode := by
    rcases hb with hb | hb <;> subst hb <;> decide
  have hb' : typ = AndNode ∨ typ = OrNode := hb.symm
  rw [UnmarshalJSON]
  simp only [jsonUnmarshalMap, h, hx, if_neg h0, if_pos hb']

theorem unmarshal_left_result (o : OperationTree) (fields lf : GoMap JSONValue)
    (x : Float64) (typ : NodeType)
    (h : GoMap.get fields "type" = some (JSONValue.number x))
    (hx : nodeTypeOfInt x.toInt = some typ) (hb : typ = OrNode ∨ typ = AndNode)
    (hl : GoMap.get fields "left_node" = some (JSONValue.object lf)) :
    (UnmarshalJSON OperationTree.zero (Payload.valid (JSONValue.object lf)) = Result.panic →
      UnmarshalJSON o (Payload.valid (JSONValue.object fields)) = Result.panic)
    ∧ (∀ u err, UnmarshalJSON OperationTree.zero (Payload.valid (JSONValue.object lf))
        = Result.ret (u, some err) →
      UnmarshalJSON o (Payload.valid (JSONValue.object fields))
        = Result.ret (OperationTree.mk typ o.Value o.LeftNode o.RightNode, some err)) := by
  have h0 : typ ≠ SingleNode := by
    rcases hb with hb | hb <;> subst hb <;> decide
  have hb' : typ = AndNode ∨ typ = OrNode := hb.symm
  constructor
  · intro hp
    rw [UnmarshalJSON]
    simp only [jsonUnmarshalMap, h, hx, if_neg h0, if_pos hb']
    split
    · rename_i lf' hl'
      rw [hl] at hl'
      simp only [Option.some.injEq, JSONValue.object.injEq] at hl'
      subst hl'
      simp only [hp]
    · rfl
  · intro u err hp
    rw [UnmarshalJSON]
    simp only [jsonUnmarshalMap, h, hx, if_neg h0, if_pos hb']
    split
    · rename_i lf' hl'
      rw [hl] at hl'
      simp only [Option.some.injEq, JSONValue.object.injEq] at hl'
      subst hl'
      simp only [hp]
    · rename_i hne
      exact absurd hl (hne lf)

theorem unmarshal_right_not_record (o : OperationTree) (fields lf : GoMap JSONValue)
    (x : Float64) (typ : NodeType) (lt : OperationTree)
    (h : GoMap.get fields "type" = some (JSONValue.number x))
    (hx : nodeTypeOfInt x.toInt = some typ) (hb : typ = OrNode ∨ typ = AndNode)
    (hl : GoMap.get fields "left_node" = some (JSONValue.object lf))
    (hlt : UnmarshalJSON OperationTree.zero (Payload.valid (JSONValue.object lf))
      = Result.ret (lt, none))
    (hr : ∀ rf, GoMap.get fields "right_node" ≠ some (JSONValue.object rf)) :
    UnmarshalJSON o (Payload.valid (JSONValue.object fields)) = Result.panic := by
  have h0 : typ ≠ SingleNode := by
    rcases hb with hb | hb <;> subst hb <;> decide
  have hb' : typ = AndNode ∨ typ = OrNode := hb.symm
  rw [UnmarshalJSON]
  simp only [jsonUnmarshalMap, h, hx, if_neg h0, if_pos hb']
  split
  · rename_i lf' hl'
    rw [hl] at hl'
    simp only [Option.some.injEq, JSONValue.object.injEq] at hl'
    subst hl'
    simp only [hlt]
  · rfl

theorem unmarshal_right_result (o : OperationTree) (fields lf rf : GoMap JSONValue)
    (x : Float64) (typ : NodeType) (lt : OperationTree)
    (h : GoMap.get fields "type" = some (JSONValue.number x))
    (hx : nodeTypeOfInt x.toInt = some typ) (hb : typ = OrNode ∨ typ = AndNode)
    (hl : GoMap.get fields "left_node" = some (JSONValue.object lf))
    (hlt : UnmarshalJSON OperationTree.zero (Payload.valid (JSONValue.object lf))
      = Result.ret (lt, none))
    (hr : GoMap.get fields "right_node" = some (JSONValue.object rf)) :
    (UnmarshalJSON OperationTree.zero (Payload.valid (JSONValue.object rf)) = Result.panic →
      UnmarshalJSON o (Payload.valid (JSONValue.object fields)) = Result.panic)
    ∧ (∀ u err, UnmarshalJSON OperationTree.zero (Payload.valid (JSONValue.object rf))
        = Result.ret (u, some err) →
      UnmarshalJSON o (Payload.valid (JSONValue.object fields))
        = Result.ret (OperationTree.mk typ o.Value o.LeftNode o.RightNode, some err)) := by
  have h0 : typ ≠ SingleNode := by
    rcases hb with hb | hb <;> subst hb <;> decide
  have hb' : typ = AndNode ∨ typ = OrNode := hb.symm
  constructor
  · intro hp
    rw [UnmarshalJSON]
    simp only [jsonUnmarshalMap, h, hx, if_neg h0, if_pos hb']
    split
    · rename_i lf' hl'
      rw [hl] at hl'
      simp only [Option.some.injEq, JSONValue.object.injEq] at hl'
      subst hl'
      simp only [hlt]
      split
      · rename_i rf' hr'
        rw [hr] at hr'
        simp only [Option.some.injEq, JSONValue.object.injEq] at hr'
        subst hr'
        simp only [hp]
      · rfl
    · rfl
  · intro u err hp
    rw [UnmarshalJSON]
    simp only [jsonUnmarshalMap, h, hx, if_neg h0, if_pos hb']
    split
    · rename_i lf' hl'
      rw [hl] at hl'
      simp only [Option.some.injEq, JSONValue.object.injEq] at hl'
      subst hl'
      simp only [hlt]
      split
      · rename_i rf' hr'
        rw [hr] at hr'
        simp only [Option.some.injEq, JSONValue.object.injEq] at hr'
        subst hr'
        simp only [hp]
      · rename_i hne
        exact absurd hr (hne rf)
    · rename_i hne
      exact absurd hl (hne lf)

/-- When `UnmarshalJSON` returns an error, the receiver is as it was, or the payload is a
record of `type` 1 or 2, the failure lies in one of its children and only `Type` has
been assigned. -/
theorem unmarshal_error_inv (o : OperationTree) (data : Payload) (t : OperationTree)
    (err : String) (h : UnmarshalJSON o data = Result.ret (t, some err)) :
    t = o ∨ ∃ typ fields x, (typ = OrNode ∨ typ = AndNode)
      ∧ jsonUnmarshalMap data = Except.ok fields
      ∧ GoMap.get fields "type" = some (JSONValue.number x)
      ∧ nodeTypeOfInt x.toInt = some typ
      ∧ t = OperationTree.mk typ o.Value o.LeftNode o.RightNode := by
  rw [UnmarshalJSON] at h
  split at h
  · simp only [Result.ret.injEq, Prod.mk.injEq] at h
    exact Or.inl h.1.symm
  · rename_i fields hv
    split at h
    · simp only [Result.ret.injEq, Prod.mk.injEq] at h
      exact Or.inl h.1.symm
    · simp only [Result.ret.injEq, Prod.mk.injEq] at h
      exact Or.inl h.1.symm
    · rename_i x hx
      split at h
      · simp only [Result.ret.injEq, Prod.mk.injEq] at h
        exact Or.inl h.1.symm
      · rename_i typ htyp
        split at h
        · simp at h
        · split at h
          · rename_i hb
            have hb' : typ = OrNode ∨ typ = AndNode := hb.symm
            split at h
            · split at h
              · simp at h
              · simp only [Result.ret.injEq, Prod.mk.injEq] at h
                exact Or.inr ⟨typ, fields, x, hb', hv, hx, htyp, h.1.symm⟩
              · split at h
                · split at h
                  · simp at h
                  · simp only [Result.ret.injEq, Prod.mk.injEq] at h
                    exact Or.inr ⟨typ, fields, x, hb', hv, hx, htyp, h.1.symm⟩
                  · simp at h
                · simp at h
            · simp at h
          · simp at h
    · simp at h

/-- What a successful `UnmarshalJSON` has read: a record whose `type` converts to one of
the three constants, and, for `OrNode` and `AndNode`, two child records decoded with no
error on zero receivers. -/
theorem unmarshal_success_inv (o : OperationTree) (data : Payload) (t : OperationTree)
    (h : UnmarshalJSON o data = Result.ret (t, none)) :
    ∃ fields x typ, jsonUnmarshalMap data = Except.ok fields
      ∧ GoMap.get fields "type" = some (JSONValue.number x)
      ∧ nodeTypeOfInt x.toInt = some typ
      ∧ ((typ = SingleNode
          ∧ t = OperationTree.mk typ (valueOfField (GoMap.get fields "value"))
              o.LeftNode o.RightNode)
        ∨ ((typ = OrNode ∨ typ = AndNode) ∧ ∃ lf rf lt rt,
            GoMap.get fields "left_node" = some (JSONValue.object lf)
            ∧ UnmarshalJSON OperationTree.zero (Payload.valid (JSONValue.object lf))
                = Result.ret (lt, none)
            ∧ GoMap.get fields "right_node" = some (JSONValue.object rf)
            ∧ UnmarshalJSON OperationTree.zero (Payload.valid (JSONValue.object rf))
                = Result.ret (rt, none)
            ∧ t = OperationTree.mk typ o.Value (Iface.tree lt) (Iface.tree rt))) := by
  rw [UnmarshalJSON] at h
  split at h
  · simp at h
  · rename_i fields hv
    split at h
    · simp at h
    · simp at h
    · rename_i x hx
      split at h
      · simp at h
      · rename_i typ htyp
        refine ⟨fields, x, typ, hv, hx, htyp, ?_⟩
        split at h
        · rename_i h0
          simp only [Result.ret.injEq, Prod.mk.injEq, and_true] at h
          exact Or.inl ⟨h0, h.symm⟩
        · split at h
          · rename_i hb
            have hb' : typ = OrNode ∨ typ = AndNode := hb.symm
            split at h
            · rename_i lf hl
              split at h
              · simp at h
              · simp at h
              · rename_i lt hlt
                split at h
                · rename_i rf hr
                  split at h
                  · simp at h
                  · simp at h
                  · rename_i rt hrt
                    simp only [Result.ret.injEq, Prod.mk.injEq, and_true] at h
                    exact Or.inr ⟨hb', lf, rf, lt, rt, hl, hlt, hr, hrt, h.symm⟩
                · simp at h
            · simp at h
          · rename_i h0 hb
            exfalso
            unfold nodeTypeOfInt at htyp
            split at htyp
            · simp only [Option.some.injEq] at htyp
              exact h0 htyp.symm
            · split at htyp
              · simp only [Option.some.injEq] at htyp
                exact hb (Or.inr htyp.symm)
              · split at htyp
                · simp only [Option.some.injEq] at htyp
                  exact hb (Or.inl htyp.symm)
                · simp at htyp
    · simp at h

theorem sizeOf_lookup_lt (k : String) (fields : List (String × JSONValue)) (j : JSONValue)
    (h : List.lookup k fields = some j) : sizeOf j < sizeOf fields := by
  induction fields with
  | nil => simp at h
  | cons e tl ih =>
    obtain ⟨k', v'⟩ := e
    simp only [List.lookup] at h
    split at h
    · simp only [Option.some.injEq] at h
      subst h
      simp only [List.cons.sizeOf_spec, Prod.mk.sizeOf_spec]
      omega
    · have := ih h
      simp only [List.cons.sizeOf_spec, Prod.mk.sizeOf_spec]
      omega

theorem sizeOf_child_lt (data : Payload) (fields : GoMap JSONValue) (k : String)
    (child : List (String × JSONValue)) (hv : jsonUnmarshalMap data = Except.ok fields)
    (h : GoMap.get fields k = some (JSONValue.object child)) :
    sizeOf (Payload.valid (JSONValue.object child)) < sizeOf data := by
  cases data with
  | invalid err => simp [jsonUnmarshalMap] at hv
  | valid j =>
    cases j with
    | object fs =>
      simp only [jsonUnmarshalMap, Except.ok.injEq] at hv
      subst hv
      have := sizeOf_lookup_lt k fs _ h
      simp only [Payload.valid.sizeOf_spec, JSONValue.object.sizeOf_spec] at this ⊢
      omega
    | null =>
      simp only [jsonUnmarshalMap, Except.ok.injEq] at hv
      subst hv
      simp [GoMap.get] at h
    | _ => simp [jsonUnmarshalMap] at hv

/-- A tree decoded with no error is well formed. -/
theorem unmarshal_wellFormed (data : Payload) (o t : OperationTree)
    (h : UnmarshalJSON o data = Result.ret (t, none)) : WellFormed t = true := by
  obtain ⟨fields, x, typ, hv, hx, htyp, hcase⟩ := unmarshal_success_inv o data t h
  rcases hcase with ⟨h0, rfl⟩ | ⟨hb, lf, rf, lt, rt, hl, hlt, hr, hrt, rfl⟩
  · cases o.LeftNode <;> cases o.RightNode <;> simp [WellFormed, h0]
  · have hwl := unmarshal_wellFormed (Payload.valid (JSONValue.object lf)) OperationTree.zero lt hlt
    have hwr := unmarshal_wellFormed (Payload.valid (JSONValue.object rf)) OperationTree.zero rt hrt
    have h0 : typ ≠ SingleNode := by
      rcases hb with hb | hb <;> subst hb <;> decide
    simp [WellFormed, h0, hb, hwl, hwr]
termination_by sizeOf data
decreasing_by
  · exact sizeOf_child_lt data fields "left_node" lf hv hl
  · exact sizeOf_child_lt data fields "right_node" rf hv hr

/-- C11. A record of `type` 1 or 2 whose `left_node` is absent or is no record, or whose
`right_node` is absent after a left child that decodes, makes `UnmarshalJSON` panic on
the assertion to `map[string]interface{}`, so no error value is returned; a child that
is a record and fails to decode does give back its error. -/
theorem unmarshal_invalid_child (o : OperationTree) :
    UnmarshalJSON o (Payload.valid (JSONValue.object [("type", JSONValue.number ⟨1, 0⟩)]))
      = Result.panic
    ∧ UnmarshalJSON o (Payload.valid (JSONValue.object
        [("type", JSONValue.number ⟨1, 0⟩), ("left_node", JSONValue.string "A"),
         ("right_node", JSONValue.object [("type", JSONValue.number ⟨0, 0⟩)])]))
      = Result.panic
    ∧ UnmarshalJSON o (Payload.valid (JSONValue.object
        [("type", JSONValue.number ⟨2, 0⟩),
         ("left_node", JSONValue.object [("type", JSONValue.number ⟨0, 0⟩)])]))
      = Result.panic
    ∧ UnmarshalJSON o (Payload.valid (JSONValue.object
        [("type", JSONValue.number ⟨1, 0⟩), ("left_node", JSONValue.object []),
         ("right_node", JSONValue.object [("type", JSONValue.number ⟨0, 0⟩)])]))
      = Result.ret (OperationTree.mk OrNode o.Value o.LeftNode o.RightNode,
          some "No type defined")
    ∧ UnmarshalJSON o (Payload.valid (JSONValue.object
        [("type", JSONValue.number ⟨1, 0⟩),
         ("left_node", JSONValue.object [("type", JSONValue.number ⟨0, 0⟩)]),
         ("right_node", JSONValue.object [("type", JSONValue.number ⟨7, 0⟩)])]))
      = Result.ret (OperationTree.mk OrNode o.Value o.LeftNode o.RightNode,
          some "Unknown type") := by
  refine ⟨?_, ?_, ?_, ?_, ?_⟩
  · exact unmarshal_left_not_record o _ ⟨1, 0⟩ OrNode rfl (by decide) (Or.inl rfl)
      (fun lf hl => by simp [GoMap.get, List.lookup] at hl)
  · exact unmarshal_left_not_record o _ ⟨1, 0⟩ OrNode rfl (by decide) (Or.inl rfl)
      (fun lf hl => by simp [GoMap.get, List.lookup] at hl)
  · exact unmarshal_right_not_record o _ [("type", JSONValue.number ⟨0, 0⟩)] ⟨2, 0⟩ AndNode
      _ rfl (by decide) (Or.inr rfl) rfl
      (unmarshal_single OperationTree.zero _ ⟨0, 0⟩ rfl (by decide))
      (fun rf hr => by simp [GoMap.get, List.lookup] at hr)
  · exact (unmarshal_left_result o
      [("type", JSONValue.number ⟨1, 0⟩), ("left_node", JSONValue.object []),
       ("right_node", JSONValue.object [("type", JSONValue.number ⟨0, 0⟩)])]
      [] ⟨1, 0⟩ OrNode rfl (by decide) (Or.inl rfl) rfl).2
      OperationTree.zero "No type defined" (unmarshal_no_type OperationTree.zero [] (Or.inl rfl))
  · exact (unmarshal_right_result o
      [("type", JSONValue.number ⟨1, 0⟩),
       ("left_node", JSONValue.object [("type", JSONValue.number ⟨0, 0⟩)]),
       ("right_node", JSONValue.object [("type", JSONValue.number ⟨7, 0⟩)])]
      [("type", JSONValue.number ⟨0, 0⟩)]
      [("type", JSONValue.number ⟨7, 0⟩)] ⟨1, 0⟩ OrNode _ rfl (by decide) (Or.inl rfl) rfl
      (unmarshal_single OperationTree.zero _ ⟨0, 0⟩ rfl (by decide)) rfl).2
      OperationTree.zero "Unknown type"
      (unmarshal_unknown_type OperationTree.zero _ ⟨7, 0⟩ rfl (by decide))

/-- C15, as the code has it. When `UnmarshalJSON` returns an error, `Value`, `LeftNode`
and `RightNode` of the receiver are as before the call, and so is `Type` unless the
payload is a record whose `type` converts to `OrNode` or `AndNode`, in which case `Type`
may hold that constant. -/
theorem unmarshal_error_receiver (o : OperationTree) (data : Payload) (t : OperationTree)
    (err : String) (h : UnmarshalJSON o data = Result.ret (t, some err)) :
    t.Value = o.Value ∧ t.LeftNode = o.LeftNode ∧ t.RightNode = o.RightNode
    ∧ (t.Typ = o.Typ ∨ ((t.Typ = OrNode ∨ t.Typ = AndNode) ∧ ∃ fields x,
        jsonUnmarshalMap data = Except.ok fields
        ∧ GoMap.get fields "type" = some (JSONValue.number x)
        ∧ nodeTypeOfInt x.toInt = some t.Typ)) := by
  rcases unmarshal_error_inv o data t err h with rfl | ⟨typ, fields, x, hb, hv, hx, htyp, rfl⟩
  · exact ⟨rfl, rfl, rfl, Or.inl rfl⟩
  · exact ⟨rfl, rfl, rfl, Or.inr ⟨hb, fields, x, hv, hx, htyp⟩⟩

theorem unmarshal_error_receiver_witness :
    UnmarshalJSON (mkLeaf "A") (Payload.valid (JSONValue.object
        [("type", JSONValue.number ⟨2, 0⟩), ("left_node", JSONValue.object [])]))
      = Result.ret (OperationTree.mk AndNode "A" Iface.nil Iface.nil, some "No type defined")
    ∧ (OperationTree.mk AndNode "A" Iface.nil Iface.nil).Value = (mkLeaf "A").Value
    ∧ (OperationTree.mk AndNode "A" Iface.nil Iface.nil).LeftNode = (mkLeaf "A").LeftNode
    ∧ (OperationTree.mk AndNode "A" Iface.nil Iface.nil).RightNode = (mkLeaf "A").RightNode := by
  have h : UnmarshalJSON (mkLeaf "A") (Payload.valid (JSONValue.object
      [("type", JSONValue.number ⟨2, 0⟩), ("left_node", JSONValue.object [])]))
      = Result.ret (OperationTree.mk AndNode "A" Iface.nil Iface.nil, some "No type defined") :=
    (unmarshal_left_result (mkLeaf "A")
      [("type", JSONValue.number ⟨2, 0⟩), ("left_node", JSONValue.object [])]
      [] ⟨2, 0⟩ AndNode rfl (by decide) (Or.inr rfl) rfl).2
      OperationTree.zero "No type defined" (unmarshal_no_type OperationTree.zero [] (Or.inl rfl))
  have hr := unmarshal_error_receiver (mkLeaf "A") _ _ "No type defined" h
  exact ⟨h, hr.1, hr.2.1, hr.2.2.1⟩

/-- C15, as stated, fails. On the zero receiver, whose `Type` is `SingleNode`, the record
of `type` 1 whose left child is the empty record is refused with the error of the child,
"No type defined", and the receiver then holds `Type = OrNode`. -/
theorem unmarshal_error_changes_type :
    UnmarshalJSON OperationTree.zero (Payload.valid (JSONValue.object
        [("type", JSONValue.number ⟨1, 0⟩), ("left_node", JSONValue.object [])]))
      = Result.ret (OperationTree.mk OrNode "" Iface.nil Iface.nil, some "No type defined")
    ∧ (OperationTree.mk OrNode "" Iface.nil Iface.nil).Typ ≠ OperationTree.zero.Typ :=
  ⟨(unmarshal_left_result OperationTree.zero
      [("type", JSONValue.number ⟨1, 0⟩), ("left_node", JSONValue.object [])]
      [] ⟨1, 0⟩ OrNode rfl (by decide) (Or.inl rfl)
      rfl).2 OperationTree.zero "No type defined"
      (unmarshal_no_type OperationTree.zero [] (Or.inl rfl)),
   by decide⟩

/-- C20. A tree that `UnmarshalJSON` returns with no error, on any receiver, is well
formed: every node reached through `OrNode` and `AndNode` children has a `Type` among the
three constants, and an `OrNode` or `AndNode` holds two `OperationTree` children, each
decoded with no error from a child record. On every mapping `Compute` then returns
either a sequence with no error or an error whose message starts "Unknown concept : ";
it neither panics nor returns "Unknown type". -/
theorem unmarshal_safe_to_evaluate (o : OperationTree) (data : Payload) (t : OperationTree)
    (h : UnmarshalJSON o data = Result.ret (t, none)) :
    WellFormed t = true
    ∧ (t.Typ = SingleNode ∨ ((t.Typ = OrNode ∨ t.Typ = AndNode) ∧ ∃ lt rt pl pr,
        t.LeftNode = Iface.tree lt ∧ t.RightNode = Iface.tree rt
        ∧ UnmarshalJSON OperationTree.zero pl = Result.ret (lt, none)
        ∧ UnmarshalJSON OperationTree.zero pr = Result.ret (rt, none)))
    ∧ ∀ m : GoMap (List String),
        (∃ a, Compute t m = Result.ret (a, none))
        ∨ (∃ rest, Compute t m = Result.ret ([], some ("Unknown concept : " ++ rest))) := by
  have hwf := unmarshal_wellFormed data o t h
  refine ⟨hwf, ?_, fun m => ?_⟩
  · obtain ⟨fields, x, typ, hv, hx, htyp, hcase⟩ := unmarshal_success_inv o data t h
    rcases hcase with ⟨h0, rfl⟩ | ⟨hb, lf, rf, lt, rt, hl, hlt, hr, hrt, rfl⟩
    · exact Or.inl h0
    · exact Or.inr ⟨hb, lt, rt, _, _, rfl, rfl, hlt, hrt⟩
  · have hc := compute_wellFormed m t hwf
    cases hf : (leafNames t).find? (fun n => (GoMap.get m n).isNone) with
    | none =>
      rw [hf] at hc
      exact Or.inl hc
    | some n =>
      rw [hf] at hc
      refine Or.inr ⟨n ++ " expect one of : " ++ spaced (GoMap.keys m), ?_⟩
      rw [hc, unknownConceptMsg_eq]
      simp only [String.append_assoc]

theorem unmarshal_safe_to_evaluate_witness :
    WellFormed (mkOr (mkLeaf "A") (mkLeaf "B")) = true
    ∧ ∀ m : GoMap (List String),
        (∃ a, Compute (mkOr (mkLeaf "A") (mkLeaf "B")) m = Result.ret (a, none))
        ∨ (∃ rest, Compute (mkOr (mkLeaf "A") (mkLeaf "B")) m
            = Result.ret ([], some ("Unknown concept : " ++ rest))) := by
  have h : UnmarshalJSON OperationTree.zero (Payload.valid (JSONValue.object
      [("type", JSONValue.number ⟨1, 0⟩),
       ("left_node", JSONValue.object
          [("type", JSONValue.number ⟨0, 0⟩), ("value", JSONValue.string "A")]),
       ("right_node", JSONValue.object
          [("type", JSONValue.number ⟨0, 0⟩), ("value", JSONValue.string "B")])]))
      = Result.ret (mkOr (mkLeaf "A") (mkLeaf "B"), none) :=
    unmarshal_binary OperationTree.zero _
      [("type", JSONValue.number ⟨0, 0⟩), ("value", JSONValue.string "A")]
      [("type", JSONValue.number ⟨0, 0⟩), ("value", JSONValue.string "B")]
      ⟨1, 0⟩ OrNode (mkLeaf "A") (mkLeaf "B") rfl (by decide) (Or.inl rfl)
      rfl (unmarshal_single OperationTree.zero _ ⟨0, 0⟩ rfl (by decide))
      rfl (unmarshal_single OperationTree.zero _ ⟨0, 0⟩ rfl (by decide))
  have hs := unmarshal_safe_to_evaluate OperationTree.zero _ _ h
  exact ⟨hs.1, hs.2.2⟩

/-! ## Evaluation with the storage -/

theorem memCompute_single_known (grow : Nat → Nat) (value : String)
    (l r : Iface OperationTree) (m : GoMap Slice) (h : Heap) (val : Slice)
    (hg : GoMap.get m value = some val) :
    Mem.Compute grow (OperationTree.mk SingleNode value l r) m h = Result.ret ((val, none), h) := by
  rw [Mem.Compute]
  simp only [OperationTree.Typ, OperationTree.Value, if_true, hg]

theorem memCompute_binary (grow : Nat → Nat) (typ : NodeType) (value : String)
    (l r : OperationTree) (m : GoMap Slice) (h h1 h2 : Heap) (a b : Slice)
    (hb : typ = OrNode ∨ typ = AndNode)
    (hl : Mem.Compute grow l m h = Result.ret ((a, none), h1))
    (hr : Mem.Compute grow r m h1 = Result.ret ((b, none), h2)) :
    Mem.Compute grow (OperationTree.mk typ value (Iface.tree l) (Iface.tree r)) m h
      = Result.ret (if typ = OrNode then
            (((Mem.union grow h2 a b).1, none), (Mem.union grow h2 a b).2)
          else (((Mem.intersection grow h2 a b).1, none), (Mem.intersection grow h2 a b).2)) := by
  have h0 : typ ≠ SingleNode := by
    rcases hb with hb | hb <;> subst hb <;> decide
  rw [Mem.Compute]
  simp only [OperationTree.Typ, OperationTree.LeftNode, OperationTree.RightNode,
    Iface.assertTree, if_neg h0, if_pos hb, hl, hr]
  rcases hb with hb | hb
  · simp [hb]
  · subst hb
    simp [AndNode, OrNode]

/-! ## Lemmas on slices and `append` -/

theorem take_drop_set (A : List String) (off len : Nat) (x : String)
    (hk : off + len < A.length) :
    ((A.set (off + len) x).drop off).take (len + 1) = ((A.drop off).take len) ++ [x] := by
  apply List.ext_getElem?
  intro i
  have hlen : ((A.drop off).take len).length = len := by
    simp only [List.length_take, List.length_drop]
    omega
  rw [List.getElem?_append, hlen, List.getElem?_take, List.getElem?_drop, List.getElem?_set]
  by_cases h1 : i < len
  · have h2 : ¬ off + len = off + i := by omega
    have h3 : i < len + 1 := by omega
    rw [if_pos h3, if_neg h2, if_pos h1, List.getElem?_take, if_pos h1, List.getElem?_drop]
  · by_cases h2 : i = len
    · subst h2
      simp [hk]
    · have h3 : ¬ i < len + 1 := by omega
      rw [if_neg h3, if_neg h1]
      cases hi : i - len with
      | zero => omega
      | succ n => simp

theorem heap_getD_set_same (h : Heap) (k : Nat) (A : List String) (hk : k < h.length) :
    (h.set k A).getD k [] = A := by
  rw [List.getD_eq_getElem?_getD, List.getElem?_set]
  simp [hk]

theorem heap_getD_set_other (h : Heap) (k j : Nat) (A : List String) (hj : j ≠ k) :
    (h.set k A).getD j [] = h.getD j [] := by
  rw [List.getD_eq_getElem?_getD, List.getD_eq_getElem?_getD, List.getElem?_set]
  have : ¬ k = j := fun e => hj e.symm
  simp [this]

theorem heap_getD_append_old (h : Heap) (j : Nat) (A : List String) (hj : j < h.length) :
    (h ++ [A]).getD j [] = h.getD j [] := by
  rw [List.getD_eq_getElem?_getD, List.getD_eq_getElem?_getD, List.getElem?_append]
  simp [hj]

theorem heap_getD_append_new (h : Heap) (A : List String) :
    (h ++ [A]).getD h.length [] = A := by
  rw [List.getD_eq_getElem?_getD, List.getElem?_append]
  simp

theorem contents_length (h : Heap) (s : Slice) (hv : s.Valid h) :
    (s.contents h).length = s.len := by
  obtain ⟨h1, _, h3⟩ := hv
  simp only [Slice.contents, List.length_take, List.length_drop]
  omega

theorem get_eq_contents (h : Heap) (s : Slice) (i : Nat) (hi : i < s.len) :
    s.get h i = (s.contents h).getD i "" := by
  simp only [Slice.get, Slice.contents, List.getD_eq_getElem?_getD, List.getElem?_take,
    List.getElem?_drop, if_pos hi]

/-- What `append` does to a slice that lies within its array: the result holds the old
elements and the new one, and a slice on another array, or any slice when a new array is
allocated, is left as it was. -/
theorem append_spec (grow : Nat → Nat) (h : Heap) (s : Slice) (x : String)
    (hv : s.Valid h) :
    (Mem.append grow h s x).1.contents (Mem.append grow h s x).2 = s.contents h ++ [x]
    ∧ (Mem.append grow h s x).1.Valid (Mem.append grow h s x).2
    ∧ ((s.len < s.cap ∧ (Mem.append grow h s x).1.arr = s.arr)
      ∨ (¬ s.len < s.cap ∧ (Mem.append grow h s x).1.arr = h.length))
    ∧ ∀ t : Slice, t.Valid h → (t.arr ≠ s.arr ∨ ¬ s.len < s.cap) →
        t.Valid (Mem.append grow h s x).2
        ∧ t.contents (Mem.append grow h s x).2 = t.contents h := by
  obtain ⟨hv1, hv2, hv3⟩ := hv
  by_cases hlt : s.len < s.cap
  · have happ : Mem.append grow h s x = (⟨s.arr, s.off, s.len + 1, s.cap⟩,
        h.set s.arr ((h.getD s.arr []).set (s.off + s.len) x)) := by
      simp only [Mem.append, if_pos hlt]
    rw [happ]
    refine ⟨?_, ?_, Or.inl ⟨hlt, rfl⟩, ?_⟩
    · simp only [Slice.contents]
      rw [heap_getD_set_same h s.arr _ hv2]
      exact take_drop_set _ s.off s.len x (by omega)
    · refine ⟨by simp only; omega, by simpa using hv2, ?_⟩
      simp only
      rw [heap_getD_set_same h s.arr _ hv2, List.length_set]
      exact hv3
    · intro t ht hsep
      have hne : t.arr ≠ s.arr := by
        rcases hsep with hsep | hsep
        · exact hsep
        · exact absurd hlt hsep
      obtain ⟨ht1, ht2, ht3⟩ := ht
      refine ⟨⟨ht1, by simpa using ht2, ?_⟩, ?_⟩
      · simp only
        rw [heap_getD_set_other h s.arr t.arr _ hne]
        exact ht3
      · simp only [Slice.contents]
        rw [heap_getD_set_other h s.arr t.arr _ hne]
  · have happ : Mem.append grow h s x = (⟨h.length, 0, s.len + 1, max (grow s.cap) (s.len + 1)⟩,
        h ++ [s.contents h ++ [x]
          ++ List.replicate (max (grow s.cap) (s.len + 1) - (s.len + 1)) ""]) := by
      simp only [Mem.append, if_neg hlt]
    have hcl : (s.contents h).length = s.len := contents_length h s ⟨hv1, hv2, hv3⟩
    rw [happ]
    refine ⟨?_, ?_, Or.inr ⟨hlt, rfl⟩, ?_⟩
    · generalize s.contents h = cs at hcl ⊢
      simp only [Slice.contents]
      rw [heap_getD_append_new, List.drop_zero]
      have hl2 : (cs ++ [x]).length = s.len + 1 := by
        simp [hcl]
      rw [List.take_append_of_le_length (by omega), List.take_of_length_le (by omega)]
    · refine ⟨by simp only; omega, by simp, ?_⟩
      simp only
      rw [heap_getD_append_new]
      simp only [List.length_append, List.length_replicate, List.length_singleton, hcl]
      omega
    · intro t ht _
      obtain ⟨ht1, ht2, ht3⟩ := ht
      refine ⟨⟨ht1, by simp; omega, ?_⟩, ?_⟩
      · simp only
        rw [heap_getD_append_old h t.arr _ ht2]
        exact ht3
      · simp only [Slice.contents]
        rw [heap_getD_append_old h t.arr _ ht2]

theorem take_succ_getD (bs : List String) (n : Nat) (hn : n < bs.length) :
    bs.take (n + 1) = bs.take n ++ [bs.getD n ""] := by
  rw [List.take_succ, List.getD_eq_getElem?_getD, List.getElem?_eq_getElem hn]
  rfl

/-- The loop `for _, item := range b` that appends to an accumulator the items a test
selects, as long as the accumulator does not write into the storage of `b`: after `n`
rounds it holds what it held plus the selected ones among the first `n` items of `b`,
and `b` holds what it held. -/
theorem append_loop (grow : Nat → Nat) (q : String → Bool) (h : Heap) (a b : Slice)
    (ha : a.Valid h) (hb : b.Valid h) (hsep : a.arr ≠ b.arr ∨ a.len = a.cap) :
    ∀ n, n ≤ b.len →
      ((List.range n).foldl
          (fun st i => if q (b.get st.2 i) then Mem.append grow st.2 st.1 (b.get st.2 i) else st)
          (a, h)).1.contents
        ((List.range n).foldl
          (fun st i => if q (b.get st.2 i) then Mem.append grow st.2 st.1 (b.get st.2 i) else st)
          (a, h)).2
        = a.contents h ++ ((b.contents h).take n).filter q
      ∧ ((List.range n).foldl
          (fun st i => if q (b.get st.2 i) then Mem.append grow st.2 st.1 (b.get st.2 i) else st)
          (a, h)).1.Valid
        ((List.range n).foldl
          (fun st i => if q (b.get st.2 i) then Mem.append grow st.2 st.1 (b.get st.2 i) else st)
          (a, h)).2
      ∧ b.Valid ((List.range n).foldl
          (fun st i => if q (b.get st.2 i) then Mem.append grow st.2 st.1 (b.get st.2 i) else st)
          (a, h)).2
      ∧ b.contents ((List.range n).foldl
          (fun st i => if q (b.get st.2 i) then Mem.append grow st.2 st.1 (b.get st.2 i) else st)
          (a, h)).2 = b.contents h
      ∧ (((List.range n).foldl
          (fun st i => if q (b.get st.2 i) then Mem.append grow st.2 st.1 (b.get st.2 i) else st)
          (a, h)).1.arr ≠ b.arr
        ∨ ((List.range n).foldl
          (fun st i => if q (b.get st.2 i) then Mem.append grow st.2 st.1 (b.get st.2 i) else st)
          (a, h)).1.len
          = ((List.range n).foldl
          (fun st i => if q (b.get st.2 i) then Mem.append grow st.2 st.1 (b.get st.2 i) else st)
          (a, h)).1.cap) := by
  intro n
  induction n with
  | zero =>
    intro _
    simp only [List.range_zero, List.foldl_nil, List.take_zero, List.filter_nil,
      List.append_nil]
    exact ⟨trivial, ha, hb, trivial, hsep⟩
  | succ n ih =>
    intro hn
    obtain ⟨ih1, ih2, ih3, ih4, ih5⟩ := ih (by omega)
    rw [List.range_succ, List.foldl_append]
    generalize (List.range n).foldl
      (fun st i => if q (b.get st.2 i) then Mem.append grow st.2 st.1 (b.get st.2 i) else st)
      (a, h) = st at ih1 ih2 ih3 ih4 ih5 ⊢
    have hblen : (b.contents h).length = b.len := contents_length h b hb
    have hitem : b.get st.2 n = (b.contents h).getD n "" := by
      rw [get_eq_contents st.2 b n (by omega), ih4]
    have htake := take_succ_getD (b.contents h) n (by omega)
    simp only [List.foldl_cons, List.foldl_nil, hitem]
    generalize (b.contents h).getD n "" = x at htake ⊢
    by_cases hq : q x = true
    · rw [if_pos hq, htake, List.filter_append]
      obtain ⟨s1, s2, s3, s4⟩ := append_spec grow st.2 st.1 x ih2
      have hfr : b.arr ≠ st.1.arr ∨ ¬ st.1.len < st.1.cap := by
        rcases ih5 with h5 | h5
        · exact Or.inl (fun e => h5 e.symm)
        · exact Or.inr (by omega)
      obtain ⟨t1, t2⟩ := s4 b ih3 hfr
      refine ⟨?_, s2, t1, t2.trans ih4, ?_⟩
      · rw [s1, ih1]
        simp [List.filter, hq]
      · rcases s3 with ⟨hlt, harr⟩ | ⟨_, harr⟩
        · rcases ih5 with h5 | h5
          · left
            rw [harr]
            exact h5
          · omega
        · left
          rw [harr]
          have := ih3.2.1
          omega
    · rw [if_neg hq, htake, List.filter_append]
      refine ⟨?_, ih2, ih3, ih4, ih5⟩
      rw [ih1]
      simp [List.filter, hq]

/-- Closed form of `union` with the storage: when the first operand has no spare capacity
or lies on another array than the second, the result holds the first operand followed by
the elements of the second that do not occur in the first. -/
theorem memUnion_contents (grow : Nat → Nat) (h : Heap) (a b : Slice)
    (ha : a.Valid h) (hb : b.Valid h) (hsep : a.arr ≠ b.arr ∨ a.len = a.cap) :
    (Mem.union grow h a b).1.contents (Mem.union grow h a b).2
      = a.contents h ++ (b.contents h).filter (fun x => decide (x ∉ a.contents h)) := by
  have hloop := (append_loop grow
    (fun item => (GoMap.get ((a.contents h).foldl (fun m item => GoMap.set m item true)
      ([] : GoMap Bool)) item).isNone) h a b ha hb hsep b.len (Nat.le_refl _)).1
  have hblen : (b.contents h).length = b.len := contents_length h b hb
  rw [List.take_of_length_le (by omega)] at hloop
  unfold Mem.union
  simp only at hloop ⊢
  rw [hloop]
  congr 1
  apply List.filter_congr
  intro x _
  have h2 := get_fold_set_nil (a.contents h) x
  cases hg : GoMap.get ((a.contents h).foldl (fun m item => GoMap.set m item true)
      ([] : GoMap Bool)) x with
  | none => rw [hg] at h2; simp at h2; simp [h2]
  | some v => rw [hg] at h2; simp at h2; simp [h2]

theorem nodup_append_filter (as bs : List String) :
    (as ++ bs.filter (fun x => decide (x ∉ as))).Nodup
      ↔ as.Nodup ∧ (bs.filter (fun x => decide (x ∉ as))).Nodup := by
  rw [List.nodup_append]
  constructor
  · rintro ⟨h1, h2, _⟩
    exact ⟨h1, h2⟩
  · rintro ⟨h1, h2⟩
    refine ⟨h1, h2, ?_⟩
    intro x hx hx'
    simp only [List.mem_filter, decide_eq_true_eq] at hx'
    exact hx'.2 hx

/-! ## Two unions over one leaf

The leaf `A` holds `["x"]` in an array of capacity 4, `B` holds `["p"]` and `C` holds
`["q"]`. Both `Or(A, B)` and `Or(A, C)` append into the array of `A`. -/

theorem alias_or_AB (grow : Nat → Nat) (y : String) :
    Mem.Compute grow (mkOr (mkLeaf "A") (mkLeaf "B"))
        [("A", ⟨0, 0, 1, 4⟩), ("B", ⟨1, 0, 1, 1⟩), ("C", ⟨2, 0, 1, 1⟩)]
        [["x", y, "", ""], ["p"], ["q"]]
      = Result.ret ((⟨0, 0, 2, 4⟩, none), [["x", "p", "", ""], ["p"], ["q"]]) :=
  (memCompute_binary grow OrNode "" _ _ _ _ _ _ ⟨0, 0, 1, 4⟩ ⟨1, 0, 1, 1⟩ (Or.inl rfl)
    (memCompute_single_known grow "A" Iface.nil Iface.nil _ _ _ (by decide))
    (memCompute_single_known grow "B" Iface.nil Iface.nil _ _ _ (by decide))).trans rfl

theorem alias_or_AC (grow : Nat → Nat) (y : String) :
    Mem.Compute grow (mkOr (mkLeaf "A") (mkLeaf "C"))
        [("A", ⟨0, 0, 1, 4⟩), ("B", ⟨1, 0, 1, 1⟩), ("C", ⟨2, 0, 1, 1⟩)]
        [["x", y, "", ""], ["p"], ["q"]]
      = Result.ret ((⟨0, 0, 2, 4⟩, none), [["x", "q", "", ""], ["p"], ["q"]]) :=
  (memCompute_binary grow OrNode "" _ _ _ _ _ _ ⟨0, 0, 1, 4⟩ ⟨2, 0, 1, 1⟩ (Or.inl rfl)
    (memCompute_single_known grow "A" Iface.nil Iface.nil _ _ _ (by decide))
    (memCompute_single_known grow "C" Iface.nil Iface.nil _ _ _ (by decide))).trans rfl

/-- C2. With `A = ["x"]` in an array of capacity 4, `B = ["p"]` and `C = ["q"]`, the trees
`l = Or(A, B)` and `r = Or(A, C)` are well formed and evaluate with no error to
`["x", "p"]` and `["x", "q"]`; yet `Or(l, r)` evaluates to `["x", "q"]`, which lacks "p",
and `Or(r, l)` to `["x", "p"]`, which lacks "q": the second child appends into the array
that holds the result of the first. -/
theorem memCompute_or_loses_member (grow : Nat → Nat) :
    WellFormed (mkOr (mkOr (mkLeaf "A") (mkLeaf "B")) (mkOr (mkLeaf "A") (mkLeaf "C"))) = true
    ∧ Mem.Compute grow (mkOr (mkLeaf "A") (mkLeaf "B"))
        [("A", ⟨0, 0, 1, 4⟩), ("B", ⟨1, 0, 1, 1⟩), ("C", ⟨2, 0, 1, 1⟩)]
        [["x", "", "", ""], ["p"], ["q"]]
      = Result.ret ((⟨0, 0, 2, 4⟩, none), [["x", "p", "", ""], ["p"], ["q"]])
    ∧ Slice.contents [["x", "p", "", ""], ["p"], ["q"]] ⟨0, 0, 2, 4⟩ = ["x", "p"]
    ∧ Mem.Compute grow (mkOr (mkLeaf "A") (mkLeaf "C"))
        [("A", ⟨0, 0, 1, 4⟩), ("B", ⟨1, 0, 1, 1⟩), ("C", ⟨2, 0, 1, 1⟩)]
        [["x", "", "", ""], ["p"], ["q"]]
      = Result.ret ((⟨0, 0, 2, 4⟩, none), [["x", "q", "", ""], ["p"], ["q"]])
    ∧ Slice.contents [["x", "q", "", ""], ["p"], ["q"]] ⟨0, 0, 2, 4⟩ = ["x", "q"]
    ∧ Mem.Compute grow (mkOr (mkOr (mkLeaf "A") (mkLeaf "B")) (mkOr (mkLeaf "A") (mkLeaf "C")))
        [("A", ⟨0, 0, 1, 4⟩), ("B", ⟨1, 0, 1, 1⟩), ("C", ⟨2, 0, 1, 1⟩)]
        [["x", "", "", ""], ["p"], ["q"]]
      = Result.ret ((⟨0, 0, 2, 4⟩, none), [["x", "q", "", ""], ["p"], ["q"]])
    ∧ Mem.Compute grow (mkOr (mkOr (mkLeaf "A") (mkLeaf "C")) (mkOr (mkLeaf "A") (mkLeaf "B")))
        [("A", ⟨0, 0, 1, 4⟩), ("B", ⟨1, 0, 1, 1⟩), ("C", ⟨2, 0, 1, 1⟩)]
        [["x", "", "", ""], ["p"], ["q"]]
      = Result.ret ((⟨0, 0, 2, 4⟩, none), [["x", "p", "", ""], ["p"], ["q"]]) := by
  refine ⟨by decide, alias_or_AB grow "", by decide, alias_or_AC grow "", by decide, ?_, ?_⟩
  · exact (memCompute_binary grow OrNode "" _ _ _ _ _ _ ⟨0, 0, 2, 4⟩ ⟨0, 0, 2, 4⟩ (Or.inl rfl)
      (alias_or_AB grow "") (alias_or_AC grow "p")).trans rfl
  · exact (memCompute_binary grow OrNode "" _ _ _ _ _ _ ⟨0, 0, 2, 4⟩ ⟨0, 0, 2, 4⟩ (Or.inl rfl)
      (alias_or_AC grow "") (alias_or_AB grow "q")).trans rfl

/-- C4. With `A = ["x"]` in an array of capacity 4, `B = ["p"]` and `C = ["q"]`, the
children `Or(A, B)` and `Or(A, C)` evaluate to `["x", "p"]` and `["x", "q"]`, whose
intersection is `["x"]`; yet the `AndNode` over them evaluates, with no error, to
`["x", "q"]`, and "q" does not occur in the result of the left child. -/
theorem memCompute_and_gains_member (grow : Nat → Nat) :
    ∃ c h, Mem.Compute grow
        (mkAnd (mkOr (mkLeaf "A") (mkLeaf "B")) (mkOr (mkLeaf "A") (mkLeaf "C")))
        [("A", ⟨0, 0, 1, 4⟩), ("B", ⟨1, 0, 1, 1⟩), ("C", ⟨2, 0, 1, 1⟩)]
        [["x", "", "", ""], ["p"], ["q"]]
      = Result.ret ((c, none), h)
    ∧ c.contents h = ["x", "q"]
    ∧ Mem.Compute grow (mkOr (mkLeaf "A") (mkLeaf "B"))
        [("A", ⟨0, 0, 1, 4⟩), ("B", ⟨1, 0, 1, 1⟩), ("C", ⟨2, 0, 1, 1⟩)]
        [["x", "", "", ""], ["p"], ["q"]]
      = Result.ret ((⟨0, 0, 2, 4⟩, none), [["x", "p", "", ""], ["p"], ["q"]])
    ∧ "q" ∉ Slice.contents [["x", "p", "", ""], ["p"], ["q"]] ⟨0, 0, 2, 4⟩ := by
  have hc := memCompute_binary grow AndNode "" (mkOr (mkLeaf "A") (mkLeaf "B"))
    (mkOr (mkLeaf "A") (mkLeaf "C")) _ _ _ _ ⟨0, 0, 2, 4⟩ ⟨0, 0, 2, 4⟩ (Or.inr rfl)
    (alias_or_AB grow "") (alias_or_AC grow "p")
  have hne : ¬ (AndNode = OrNode) := by decide
  rw [if_neg hne] at hc
  refine ⟨_, _, hc, ?_, alias_or_AB grow "", by decide⟩
  have hloop := (append_loop grow
    (fun item => (GoMap.get ((Slice.contents [["x", "q", "", ""], ["p"], ["q"]]
        ⟨0, 0, 2, 4⟩).foldl (fun m item => GoMap.set m item true)
      ([] : GoMap Bool)) item).isSome) [["x", "q", "", ""], ["p"], ["q"]]
    Slice.empty ⟨0, 0, 2, 4⟩ (by decide) (by decide) (Or.inr rfl) 2 (Nat.le_refl _)).1
  exact hloop.trans (by decide)

/-- C19. With `A = ["x"]` in an array of capacity 4, `B = ["p", "q"]` and `C = ["q"]`, no
sequence of the mapping repeats an address and `Or(Or(A, B), Or(A, C))` is well formed and
evaluates with no error, yet to `["x", "q", "q"]`: the append of the second child writes
"q" over the "p" of the first child's result. -/
theorem memCompute_creates_duplicate (grow : Nat → Nat) :
    WellFormed (mkOr (mkOr (mkLeaf "A") (mkLeaf "B")) (mkOr (mkLeaf "A") (mkLeaf "C"))) = true
    ∧ (Slice.contents [["x", "", "", ""], ["p", "q"], ["q"]] ⟨0, 0, 1, 4⟩).Nodup
    ∧ (Slice.contents [["x", "", "", ""], ["p", "q"], ["q"]] ⟨1, 0, 2, 2⟩).Nodup
    ∧ (Slice.contents [["x", "", "", ""], ["p", "q"], ["q"]] ⟨2, 0, 1, 1⟩).Nodup
    ∧ Mem.Compute grow (mkOr (mkOr (mkLeaf "A") (mkLeaf "B")) (mkOr (mkLeaf "A") (mkLeaf "C")))
        [("A", ⟨0, 0, 1, 4⟩), ("B", ⟨1, 0, 2, 2⟩), ("C", ⟨2, 0, 1, 1⟩)]
        [["x", "", "", ""], ["p", "q"], ["q"]]
      = Result.ret ((⟨0, 0, 3, 4⟩, none), [["x", "q", "q", ""], ["p", "q"], ["q"]])
    ∧ Slice.contents [["x", "q", "q", ""], ["p", "q"], ["q"]] ⟨0, 0, 3, 4⟩ = ["x", "q", "q"]
    ∧ ¬ (["x", "q", "q"] : List String).Nodup := by
  have h1 : Mem.Compute grow (mkOr (mkLeaf "A") (mkLeaf "B"))
      [("A", ⟨0, 0, 1, 4⟩), ("B", ⟨1, 0, 2, 2⟩), ("C", ⟨2, 0, 1, 1⟩)]
      [["x", "", "", ""], ["p", "q"], ["q"]]
      = Result.ret ((⟨0, 0, 3, 4⟩, none), [["x", "p", "q", ""], ["p", "q"], ["q"]]) :=
    (memCompute_binary grow OrNode "" _ _ _ _ _ _ ⟨0, 0, 1, 4⟩ ⟨1, 0, 2, 2⟩ (Or.inl rfl)
      (memCompute_single_known grow "A" Iface.nil Iface.nil _ _ _ (by decide))
      (memCompute_single_known grow "B" Iface.nil Iface.nil _ _ _ (by decide))).trans rfl
  have h2 : Mem.Compute grow (mkOr (mkLeaf "A") (mkLeaf "C"))
      [("A", ⟨0, 0, 1, 4⟩), ("B", ⟨1, 0, 2, 2⟩), ("C", ⟨2, 0, 1, 1⟩)]
      [["x", "p", "q", ""], ["p", "q"], ["q"]]
      = Result.ret ((⟨0, 0, 2, 4⟩, none), [["x", "q", "q", ""], ["p", "q"], ["q"]]) :=
    (memCompute_binary grow OrNode "" _ _ _ _ _ _ ⟨0, 0, 1, 4⟩ ⟨2, 0, 1, 1⟩ (Or.inl rfl)
      (memCompute_single_known grow "A" Iface.nil Iface.nil _ _ _ (by decide))
      (memCompute_single_known grow "C" Iface.nil Iface.nil _ _ _ (by decide))).trans rfl
  refine ⟨by decide, by decide, by decide, by decide, ?_, by decide, by decide⟩
  exact (memCompute_binary grow OrNode "" _ _ _ _ _ _ ⟨0, 0, 3, 4⟩ ⟨0, 0, 2, 4⟩ (Or.inl rfl)
    h1 h2).trans rfl

/-! ## Unions whose operands do not share storage -/

/-- C3, as the code has it. When both children of an `OrNode` evaluate with no error and
the slice of the left child has no spare capacity or lies on another array than the slice
of the right child, the node evaluates with no error to the left result followed by the
elements of the right result that do not occur in the left one; that sequence repeats no
address exactly when the left result repeats none and the elements of the right result
absent from the left one are distinct. -/
theorem memCompute_or_nodup_iff (grow : Nat → Nat) (m : GoMap Slice) (h h1 h2 : Heap)
    (l r : OperationTree) (v : String) (a b : Slice)
    (hl : Mem.Compute grow l m h = Result.ret ((a, none), h1))
    (hr : Mem.Compute grow r m h1 = Result.ret ((b, none), h2))
    (ha : a.Valid h2) (hb : b.Valid h2) (hsep : a.arr ≠ b.arr ∨ a.len = a.cap) :
    ∃ c h3, Mem.Compute grow (OperationTree.mk OrNode v (Iface.tree l) (Iface.tree r)) m h
        = Result.ret ((c, none), h3)
      ∧ c.contents h3
        = a.contents h2 ++ (b.contents h2).filter (fun x => decide (x ∉ a.contents h2))
      ∧ ((c.contents h3).Nodup ↔ (a.contents h2).Nodup
          ∧ ((b.contents h2).filter (fun x => decide (x ∉ a.contents h2))).Nodup) := by
  have hc := memCompute_binary grow OrNode v l r m h h1 h2 a b (Or.inl rfl) hl hr
  rw [if_pos rfl] at hc
  have hu := memUnion_contents grow h2 a b ha hb hsep
  refine ⟨_, _, hc, hu, ?_⟩
  rw [hu]
  exact nodup_append_filter _ _

theorem memCompute_or_nodup_iff_witness :
    ∃ c h3, Mem.Compute (fun c => 2 * c) (mkOr (mkLeaf "A") (mkLeaf "B"))
        [("A", ⟨0, 0, 2, 4⟩), ("B", ⟨1, 0, 3, 3⟩)] [["x", "y", "", ""], ["y", "z", "y"]]
        = Result.ret ((c, none), h3)
      ∧ c.contents h3
        = Slice.contents [["x", "y", "", ""], ["y", "z", "y"]] ⟨0, 0, 2, 4⟩
          ++ (Slice.contents [["x", "y", "", ""], ["y", "z", "y"]] ⟨1, 0, 3, 3⟩).filter
            (fun x => decide
              (x ∉ Slice.contents [["x", "y", "", ""], ["y", "z", "y"]] ⟨0, 0, 2, 4⟩))
      ∧ ((c.contents h3).Nodup
        ↔ (Slice.contents [["x", "y", "", ""], ["y", "z", "y"]] ⟨0, 0, 2, 4⟩).Nodup
          ∧ ((Slice.contents [["x", "y", "", ""], ["y", "z", "y"]] ⟨1, 0, 3, 3⟩).filter
            (fun x => decide
              (x ∉ Slice.contents [["x", "y", "", ""], ["y", "z", "y"]] ⟨0, 0, 2, 4⟩))).Nodup) :=
  memCompute_or_nodup_iff (fun c => 2 * c) [("A", ⟨0, 0, 2, 4⟩), ("B", ⟨1, 0, 3, 3⟩)]
    [["x", "y", "", ""], ["y", "z", "y"]] [["x", "y", "", ""], ["y", "z", "y"]]
    [["x", "y", "", ""], ["y", "z", "y"]] (mkLeaf "A") (mkLeaf "B") ""
    ⟨0, 0, 2, 4⟩ ⟨1, 0, 3, 3⟩
    (memCompute_single_known _ "A" Iface.nil Iface.nil _ _ _ (by decide))
    (memCompute_single_known _ "B" Iface.nil Iface.nil _ _ _ (by decide))
    (by decide) (by decide) (Or.inl (by decide))

/-- C3, as stated, fails. The `OrNode` over the leaves `A` and `B` is well formed and
evaluates with no error, yet with `A = ["x", "x"]` and `B` empty the result is
`["x", "x"]`, and with `A = ["x"]` and `B = ["y", "y"]` it is `["x", "y", "y"]`. -/
theorem memCompute_or_keeps_duplicates :
    WellFormed (mkOr (mkLeaf "A") (mkLeaf "B")) = true
    ∧ Mem.Compute (fun c => 2 * c) (mkOr (mkLeaf "A") (mkLeaf "B"))
        [("A", ⟨0, 0, 2, 2⟩), ("B", ⟨1, 0, 0, 0⟩)] [["x", "x"], []]
      = Result.ret ((⟨0, 0, 2, 2⟩, none), [["x", "x"], []])
    ∧ Slice.contents [["x", "x"], []] ⟨0, 0, 2, 2⟩ = ["x", "x"]
    ∧ ¬ (["x", "x"] : List String).Nodup
    ∧ Mem.Compute (fun c => 2 * c) (mkOr (mkLeaf "A") (mkLeaf "B"))
        [("A", ⟨0, 0, 1, 1⟩), ("B", ⟨1, 0, 2, 2⟩)] [["x"], ["y", "y"]]
      = Result.ret ((⟨3, 0, 3, 4⟩, none),
          [["x"], ["y", "y"], ["x", "y"], ["x", "y", "y", ""]])
    ∧ Slice.contents [["x"], ["y", "y"], ["x", "y"], ["x", "y", "y", ""]] ⟨3, 0, 3, 4⟩
      = ["x", "y", "y"]
    ∧ ¬ (["x", "y", "y"] : List String).Nodup := by
  refine ⟨by decide, ?_, by decide, by decide, ?_, by decide, by decide⟩
  · exact (memCompute_binary _ OrNode "" _ _ _ _ _ _ ⟨0, 0, 2, 2⟩ ⟨1, 0, 0, 0⟩ (Or.inl rfl)
      (memCompute_single_known _ "A" Iface.nil Iface.nil _ _ _ (by decide))
      (memCompute_single_known _ "B" Iface.nil Iface.nil _ _ _ (by decide))).trans (by decide)
  · exact (memCompute_binary _ OrNode "" _ _ _ _ _ _ ⟨0, 0, 1, 1⟩ ⟨1, 0, 2, 2⟩ (Or.inl rfl)
      (memCompute_single_known _ "A" Iface.nil Iface.nil _ _ _ (by decide))
      (memCompute_single_known _ "B" Iface.nil Iface.nil _ _ _ (by decide))).trans (by decide)

/-- C16. `union a b` is `a` unchanged, followed by the elements of `b` that do not occur
in `a`, in the order they have in `b`; `union a b` and `union b a` have the same members;
and in memory, on two slices that hold `a` and `b`, `union` returns a slice that holds
that sequence whenever the first slice has no spare capacity or lies on another array
than the second. -/
theorem union_first_seen_order (a b : List String) :
    union a b = a ++ b.filter (fun x => decide (x ∉ a))
    ∧ (∀ x, x ∈ union a b ↔ x ∈ union b a)
    ∧ ∀ (grow : Nat → Nat) (h : Heap) (sa sb : Slice), sa.Valid h → sb.Valid h →
        (sa.arr ≠ sb.arr ∨ sa.len = sa.cap) → sa.contents h = a → sb.contents h = b →
        (Mem.union grow h sa sb).1.contents (Mem.union grow h sa sb).2
          = a ++ b.filter (fun x => decide (x ∉ a)) := by
  have hu : union a b = a ++ b.filter (fun x => decide (x ∉ a)) := by
    rw [union_eq]
    congr 1
    apply List.filter_congr
    intro x _
    simp
  refine ⟨hu, ?_, ?_⟩
  · intro x
    rw [mem_union, mem_union]
    exact Or.comm
  · intro grow h sa sb hsa hsb hsep hca hcb
    rw [memUnion_contents grow h sa sb hsa hsb hsep, hca, hcb]

theorem union_first_seen_order_witness :
    union ["x", "y"] ["y", "z", "x", "w"]
        = ["x", "y"] ++ ["y", "z", "x", "w"].filter (fun x => decide (x ∉ ["x", "y"]))
    ∧ (Mem.union (fun c => 2 * c) [["x", "y", ""], ["y", "z", "x", "w"]]
          ⟨0, 0, 2, 3⟩ ⟨1, 0, 4, 4⟩).1.contents
        (Mem.union (fun c => 2 * c) [["x", "y", ""], ["y", "z", "x", "w"]]
          ⟨0, 0, 2, 3⟩ ⟨1, 0, 4, 4⟩).2
      = ["x", "y"] ++ ["y", "z", "x", "w"].filter (fun x => decide (x ∉ ["x", "y"])) :=
  ⟨(union_first_seen_order ["x", "y"] ["y", "z", "x", "w"]).1,
   (union_first_seen_order ["x", "y"] ["y", "z", "x", "w"]).2.2 (fun c => 2 * c)
      [["x", "y", ""], ["y", "z", "x", "w"]] ⟨0, 0, 2, 3⟩ ⟨1, 0, 4, 4⟩
      (by decide) (by decide) (Or.inl (by decide)) (by decide) (by decide)⟩

/-! ## Errors are the same with the storage -/

theorem memCompute_single_unknown (grow : Nat → Nat) (value : String)
    (l r : Iface OperationTree) (m : GoMap Slice) (h : Heap)
    (hg : GoMap.get m value = none) :
    Mem.Compute grow (OperationTree.mk SingleNode value l r) m h
      = Result.ret ((Slice.empty, some (unknownConceptMsg value m)), h) := by
  rw [Mem.Compute]
  simp only [OperationTree.Typ, OperationTree.Value, if_true, hg]

theorem memCompute_left_error (grow : Nat → Nat) (typ : NodeType) (value : String)
    (l : OperationTree) (r : Iface OperationTree) (m : GoMap Slice) (h h1 : Heap)
    (x : Slice) (err : String) (hb : typ = OrNode ∨ typ = AndNode)
    (hl : Mem.Compute grow l m h = Result.ret ((x, some err), h1)) :
    Mem.Compute grow (OperationTree.mk typ value (Iface.tree l) r) m h
      = Result.ret ((Slice.empty, some err), h1) := by
  have h0 : typ ≠ SingleNode := by
    rcases hb with hb | hb <;> subst hb <;> decide
  rw [Mem.Compute]
  simp only [OperationTree.Typ, OperationTree.LeftNode, Iface.assertTree, if_neg h0,
    if_pos hb, hl]

theorem memCompute_right_error (grow : Nat → Nat) (typ : NodeType) (value : String)
    (l r : OperationTree) (m : GoMap Slice) (h h1 h2 : Heap) (a x : Slice) (err : String)
    (hb : typ = OrNode ∨ typ = AndNode)
    (hl : Mem.Compute grow l m h = Result.ret ((a, none), h1))
    (hr : Mem.Compute grow r m h1 = Result.ret ((x, some err), h2)) :
    Mem.Compute grow (OperationTree.mk typ value (Iface.tree l) (Iface.tree r)) m h
      = Result.ret ((Slice.empty, some err), h2) := by
  have h0 : typ ≠ SingleNode := by
    rcases hb with hb | hb <;> subst hb <;> decide
  rw [Mem.Compute]
  simp only [OperationTree.Typ, OperationTree.LeftNode, OperationTree.RightNode,
    Iface.assertTree, if_neg h0, if_pos hb, hl, hr]

/-- With the storage as on sequences: on a well-formed tree `Compute` returns with the
error of the first leaf, left to right, that the mapping does not know, and with a slice
and no error when it knows them all. -/
theorem memCompute_wellFormed (grow : Nat → Nat) (m : GoMap Slice) :
    ∀ (t : OperationTree) (h : Heap), WellFormed t = true →
      match (leafNames t).find? (fun n => (GoMap.get m n).isNone) with
      | some n => ∃ h', Mem.Compute grow t m h
          = Result.ret ((Slice.empty, some (unknownConceptMsg n m)), h')
      | none => ∃ c h', Mem.Compute grow t m h = Result.ret ((c, none), h')
  | OperationTree.mk typ value left right, h, hwf => by
    by_cases h0 : typ = SingleNode
    · subst h0
      rw [leafNames_single]
      cases hg : GoMap.get m value with
      | none =>
        simp only [List.find?, hg, Option.isNone_none]
        exact ⟨h, memCompute_single_unknown grow value _ _ m h hg⟩
      | some val =>
        simp only [List.find?, hg, Option.isNone_some]
        exact ⟨val, h, memCompute_single_known grow value _ _ m h val hg⟩
    · obtain ⟨hb, l, r, rfl, rfl, hl, hr⟩ := wellFormed_binary typ value left right h0 hwf
      have ihl := memCompute_wellFormed grow m l h hl
      rw [leafNames_binary typ value l r h0 hb, List.find?_append]
      cases hfl : (leafNames l).find? (fun n => (GoMap.get m n).isNone) with
      | some n =>
        rw [hfl] at ihl
        obtain ⟨h1, hc⟩ := ihl
        simp only [Option.or]
        exact ⟨h1, memCompute_left_error grow typ value l _ m h h1 _ _ hb hc⟩
      | none =>
        rw [hfl] at ihl
        obtain ⟨a, h1, ha⟩ := ihl
        have ihr := memCompute_wellFormed grow m r h1 hr
        simp only [Option.or]
        cases hfr : (leafNames r).find? (fun n => (GoMap.get m n).isNone) with
        | some n =>
          rw [hfr] at ihr
          obtain ⟨h2, hc⟩ := ihr
          exact ⟨h2, memCompute_right_error grow typ value l r m h h1 h2 a _ _ hb ha hc⟩
        | none =>
          rw [hfr] at ihr
          obtain ⟨b, h2, hb'⟩ := ihr
          have hc := memCompute_binary grow typ value l r m h h1 h2 a b hb ha hb'
          by_cases ho : typ = OrNode
          · rw [if_pos ho] at hc
            exact ⟨_, _, hc⟩
          · rw [if_neg ho] at hc
            exact ⟨_, _, hc⟩

theorem get_view (m : GoMap Slice) (h : Heap) (k : String) :
    GoMap.get (Mem.view m h) k = (GoMap.get m k).map (fun s => s.contents h) := by
  induction m with
  | nil => rfl
  | cons e tl ih =>
    obtain ⟨k', v'⟩ := e
    have hv : Mem.view ((k', v') :: tl) h = (k', v'.contents h) :: Mem.view tl h := rfl
    rw [hv, GoMap.get_cons, GoMap.get_cons, ih]
    by_cases hk : k = k'
    · simp [hk]
    · simp [hk]

theorem keys_view (m : GoMap Slice) (h : Heap) : GoMap.keys (Mem.view m h) = GoMap.keys m := by
  simp [GoMap.keys, Mem.view, List.map_map, Function.comp_def]

theorem unknownConceptMsg_view (n : String) (m : GoMap Slice) (h : Heap) :
    unknownConceptMsg n (Mem.view m h) = unknownConceptMsg n m := by
  rw [unknownConceptMsg_eq, unknownConceptMsg_eq, keys_view]

/-- On a well-formed tree the evaluation on sequences and the evaluation with the storage
return the same error, or both none. -/
theorem memCompute_same_error (grow : Nat → Nat) (m : GoMap Slice) (h : Heap)
    (t : OperationTree) (hwf : WellFormed t = true) :
    (∃ a e, Compute t (Mem.view m h) = Result.ret (a, e)
      ∧ ∃ c h', Mem.Compute grow t m h = Result.ret ((c, e), h')) := by
  have hl := compute_wellFormed (Mem.view m h) t hwf
  have hm := memCompute_wellFormed grow m t h hwf
  have hp : (fun n => (GoMap.get (Mem.view m h) n).isNone)
      = (fun n => (GoMap.get m n).isNone) := by
    funext n
    rw [get_view]
    cases GoMap.get m n <;> rfl
  rw [hp] at hl
  cases hf : (leafNames t).find? (fun n => (GoMap.get m n).isNone) with
  | some n =>
    rw [hf] at hl hm
    obtain ⟨h', hc⟩ := hm
    simp only [unknownConceptMsg_view] at hl
    exact ⟨_, _, hl, _, _, hc⟩
  | none =>
    rw [hf] at hl hm
    simp only at hl hm
    obtain ⟨a, ha⟩ := hl
    obtain ⟨c, h', hc⟩ := hm
    exact ⟨_, _, ha, _, _, hc⟩

end Query
